import Mathlib

/-!
TinyDDS: the CDR codec (`include/tinydds/rtps/cdr.hpp`) and the RTPS value
types (`sequence_number.hpp`, `guid.hpp`, `locator.hpp`).

A shallow embedding of `CdrSerializer`, `CdrDeserializer`, `SequenceNumber`,
`GUID` and `Locator`, followed by the properties that are established on it.

Modelling conventions.

* A `uint8_t` is a `Byte` (`Fin 256`); a `std::vector<uint8_t>` and a
  `std::string` are `List Byte`.
* Unsigned fixed-width integers are `Nat`, signed ones are `Int`; every
  conversion to a narrower type is an explicit reduction modulo `2 ^ w`.
* `size_t` is 64 bits wide.  A `std::vector<uint8_t>` holds fewer than `2 ^ 63`
  elements, the read cursor never exceeds the buffer length by more than 7 and
  a string length is below `2 ^ 32`, so that none of the `size_t` sums computed
  by the codec can wrap; they are modelled in `Nat`.
* The host is little-endian: byte `i` of the object representation of an
  integer `v` is `(v / 256 ^ i) % 256`, signed integers being stored in two's
  complement.
* The deserializer indexes its buffer with the checked `buffer_[i]?`.  A read
  evaluates to `none` when it dereferences an index outside the buffer
  (undefined behaviour in C++), to `some (none, d)` when it returns `false` and
  to `some (some v, d)` when it returns `true` having stored `v`; `d` is the
  deserializer after the call.
* `serialize_float` and `serialize_double` are left out (floating point).
-/

namespace tinydds.rtps

/-- One `uint8_t`. -/
abbrev Byte := Fin 256

/-- Conversion of an integer to `uint8_t`. -/
def toByte (n : Nat) : Byte := Fin.ofNat n

/-- The expression `ptr[i]` of `write_value`: byte `i` of the object
representation of the unsigned integer `v`. -/
def objByte (v : Nat) (i : Nat) : Byte := toByte (v / 256 ^ i)

/-- The unsigned integer whose object representation is the given bytes
(`ptr[0]`, `ptr[1]`, ...): what `memcpy` into an unsigned integer produces. -/
def fromObjBytes : List Byte → Nat
  | [] => 0
  | b :: bs => b.val + 256 * fromObjBytes bs

/-- Two's complement: the unsigned integer of `size` bytes that has the same
object representation as the signed integer `v`. -/
def unsignedRepr (size : Nat) (v : Int) : Nat := (v % (2 : Int) ^ (8 * size)).toNat

/-- Two's complement: the signed integer of `size` bytes that has the same
object representation as the unsigned integer `u`. -/
def signedValue (size : Nat) (u : Nat) : Int :=
  if u < 2 ^ (8 * size - 1) then (u : Int) else (u : Int) - (2 : Int) ^ (8 * size)

/-! ## CdrSerializer -/

/-- The members of `CdrSerializer`. -/
structure CdrSerializer where
  buffer_ : List Byte
  swap_bytes_ : Bool
deriving DecidableEq

namespace CdrSerializer

/-- The constructor: `reserve` does not change the contents. -/
def init (_capacity : Nat) : CdrSerializer := ⟨[], false⟩

/-- The accessor `buffer()`. -/
def buffer (s : CdrSerializer) : List Byte := s.buffer_

/-- The private `align`. -/
def align (s : CdrSerializer) (alignment : Nat) : CdrSerializer :=
  let current_pos := s.buffer_.length
  let padding := (alignment - current_pos % alignment) % alignment
  { s with buffer_ := s.buffer_ ++ List.replicate padding (0 : Byte) }

/-- The private `write_value<T>`, with `size = sizeof(T)` and `v` the value seen
as an unsigned integer of that size. -/
def write_value (s : CdrSerializer) (size : Nat) (v : Nat) : CdrSerializer :=
  if s.swap_bytes_ then
    { s with buffer_ := s.buffer_ ++ (List.range size).map (fun i => objByte v (size - 1 - i)) }
  else
    { s with buffer_ := s.buffer_ ++ (List.range size).map (fun i => objByte v i) }

def serialize_bool (s : CdrSerializer) (value : Bool) : CdrSerializer :=
  { s with buffer_ := s.buffer_ ++ [if value then (1 : Byte) else 0] }

def serialize_byte (s : CdrSerializer) (value : Byte) : CdrSerializer :=
  { s with buffer_ := s.buffer_ ++ [value] }

def serialize_uint16 (s : CdrSerializer) (value : Nat) : CdrSerializer :=
  (s.align 2).write_value 2 value

def serialize_int16 (s : CdrSerializer) (value : Int) : CdrSerializer :=
  (s.align 2).write_value 2 (unsignedRepr 2 value)

def serialize_uint32 (s : CdrSerializer) (value : Nat) : CdrSerializer :=
  (s.align 4).write_value 4 value

def serialize_int32 (s : CdrSerializer) (value : Int) : CdrSerializer :=
  (s.align 4).write_value 4 (unsignedRepr 4 value)

def serialize_uint64 (s : CdrSerializer) (value : Nat) : CdrSerializer :=
  (s.align 8).write_value 8 value

def serialize_int64 (s : CdrSerializer) (value : Int) : CdrSerializer :=
  (s.align 8).write_value 8 (unsignedRepr 8 value)

/-- The method `serialize_string`; the length is cast to `uint32_t`. -/
def serialize_string (s : CdrSerializer) (value : List Byte) : CdrSerializer :=
  let length := (value.length + 1) % 2 ^ 32
  let s1 := s.serialize_uint32 length
  let s2 := { s1 with buffer_ := s1.buffer_ ++ value }
  { s2 with buffer_ := s2.buffer_ ++ [(0 : Byte)] }

/-- The method `serialize_array`; the element count is cast to `uint32_t`. -/
def serialize_array (s : CdrSerializer) (value : List Byte) : CdrSerializer :=
  let s1 := s.serialize_uint32 (value.length % 2 ^ 32)
  { s1 with buffer_ := s1.buffer_ ++ value }

end CdrSerializer

/-! ## CdrDeserializer -/

/-- The members of `CdrDeserializer`. -/
structure CdrDeserializer where
  buffer_ : List Byte
  pos_ : Nat
  swap_bytes_ : Bool
deriving DecidableEq

/-- Dereference the buffer at each of the given indices, in order; `none` as
soon as one index is outside the buffer. -/
def derefAll (buffer : List Byte) : List Nat → Option (List Byte)
  | [] => some []
  | i :: rest =>
    match buffer[i]? with
    | none => none
    | some b =>
      match derefAll buffer rest with
      | none => none
      | some bs => some (b :: bs)

namespace CdrDeserializer

/-- The constructor. -/
def init (buffer : List Byte) : CdrDeserializer := ⟨buffer, 0, false⟩

/-- What a read evaluates to: `none` is an out-of-bounds dereference,
`some (none, d)` is `return false`, `some (some v, d)` is `return true` with
`v` stored in the out-parameter. -/
abbrev Read (α : Type) := Option (Option α × CdrDeserializer)

def deserilalizer_bool (d : CdrDeserializer) : Read Bool :=
  if d.pos_ ≥ d.buffer_.length then some (none, d)
  else
    match d.buffer_[d.pos_]? with
    | none => none
    | some b => some (some (b != 0), { d with pos_ := d.pos_ + 1 })

def deserialize_byte (d : CdrDeserializer) : Read Byte :=
  if d.pos_ ≥ d.buffer_.length then some (none, d)
  else
    match d.buffer_[d.pos_]? with
    | none => none
    | some b => some (some b, { d with pos_ := d.pos_ + 1 })

/-- The private `align`. -/
def align (d : CdrDeserializer) (alignment : Nat) : CdrDeserializer :=
  let padding := (alignment - d.pos_ % alignment) % alignment
  { d with pos_ := d.pos_ + padding }

/-- The private `read_value<T>`, with `size = sizeof(T)`; the value is returned
as the unsigned integer that has the object representation read. -/
def read_value (d : CdrDeserializer) (size : Nat) : Read Nat :=
  if d.pos_ + size > d.buffer_.length then some (none, d)
  else
    let indices :=
      if d.swap_bytes_ then (List.range size).map (fun i => d.pos_ + size - 1 - i)
      else (List.range size).map (fun i => d.pos_ + i)
    match derefAll d.buffer_ indices with
    | none => none
    | some bytes => some (some (fromObjBytes bytes), { d with pos_ := d.pos_ + size })

/-- Reinterpretation of the value read, for the signed instances of
`read_value<T>`. -/
def asSigned (size : Nat) : Read Nat → Read Int
  | none => none
  | some (none, d) => some (none, d)
  | some (some u, d) => some (some (signedValue size u), d)

def deserialize_uint16 (d : CdrDeserializer) : Read Nat :=
  (d.align 2).read_value 2

def deserialize_int16 (d : CdrDeserializer) : Read Int :=
  asSigned 2 ((d.align 2).read_value 2)

def deserialize_uint32 (d : CdrDeserializer) : Read Nat :=
  (d.align 4).read_value 4

def deserialize_int32 (d : CdrDeserializer) : Read Int :=
  asSigned 4 ((d.align 4).read_value 4)

def deserialize_uint64 (d : CdrDeserializer) : Read Nat :=
  (d.align 8).read_value 8

def deserialize_int64 (d : CdrDeserializer) : Read Int :=
  asSigned 8 ((d.align 8).read_value 8)

/-- The method `deserialize_string`. -/
def deserialize_string (d : CdrDeserializer) : Read (List Byte) :=
  match d.deserialize_uint32 with
  | none => none
  | some (none, d1) => some (none, d1)
  | some (some length, d1) =>
    if length = 0 then some (some [], d1)
    else if d1.pos_ + length > d1.buffer_.length then some (none, d1)
    else
      match d1.buffer_[d1.pos_]? with
      | none => none
      | some _ =>
        match derefAll d1.buffer_ ((List.range (length - 1)).map (fun i => d1.pos_ + i)) with
        | none => none
        | some bytes => some (some bytes, { d1 with pos_ := d1.pos_ + length })

end CdrDeserializer

/-! ## Sequences of fields

The callers of the codec (`tests/test_cdr.cpp`) write a sequence of fields into
one serializer and read them back in the same order from one deserializer,
attempting every read whatever the outcome of the previous ones. -/

/-- A value that can be both written and read back. -/
inductive Field
  | bool (v : Bool)
  | byte (v : Byte)
  | uint16 (v : Nat)
  | int16 (v : Int)
  | uint32 (v : Nat)
  | int32 (v : Int)
  | uint64 (v : Nat)
  | int64 (v : Int)
  | string (v : List Byte)
deriving DecidableEq

/-- The read operations of `CdrDeserializer`. -/
inductive ReadOp
  | bool | byte | uint16 | int16 | uint32 | int32 | uint64 | int64 | string
deriving DecidableEq

/-- The read operation that corresponds to a field. -/
def Field.op : Field → ReadOp
  | .bool _ => .bool
  | .byte _ => .byte
  | .uint16 _ => .uint16
  | .int16 _ => .int16
  | .uint32 _ => .uint32
  | .int32 _ => .int32
  | .uint64 _ => .uint64
  | .int64 _ => .int64
  | .string _ => .string

/-- The value lies in the range of its C++ type; a string has fewer than
`2 ^ 32 - 1` bytes. -/
def Field.InRange : Field → Prop
  | .bool _ => True
  | .byte _ => True
  | .uint16 v => v < 2 ^ 16
  | .int16 v => -(2 : Int) ^ 15 ≤ v ∧ v < (2 : Int) ^ 15
  | .uint32 v => v < 2 ^ 32
  | .int32 v => -(2 : Int) ^ 31 ≤ v ∧ v < (2 : Int) ^ 31
  | .uint64 v => v < 2 ^ 64
  | .int64 v => -(2 : Int) ^ 63 ≤ v ∧ v < (2 : Int) ^ 63
  | .string v => v.length < 2 ^ 32 - 1

instance (f : Field) : Decidable f.InRange := by
  cases f <;> unfold Field.InRange <;> infer_instance

/-- Write one field with the method of its type. -/
def CdrSerializer.write (s : CdrSerializer) : Field → CdrSerializer
  | .bool v => s.serialize_bool v
  | .byte v => s.serialize_byte v
  | .uint16 v => s.serialize_uint16 v
  | .int16 v => s.serialize_int16 v
  | .uint32 v => s.serialize_uint32 v
  | .int32 v => s.serialize_int32 v
  | .uint64 v => s.serialize_uint64 v
  | .int64 v => s.serialize_int64 v
  | .string v => s.serialize_string v

/-- Write the fields in order. -/
def CdrSerializer.writeAll (s : CdrSerializer) : List Field → CdrSerializer
  | [] => s
  | f :: fs => (s.write f).writeAll fs

/-- Tag the value of a read with its type. -/
def CdrDeserializer.tagged {α : Type} (tag : α → Field) : CdrDeserializer.Read α → CdrDeserializer.Read Field
  | none => none
  | some (none, d) => some (none, d)
  | some (some v, d) => some (some (tag v), d)

/-- Perform one read operation. -/
def CdrDeserializer.read (d : CdrDeserializer) : ReadOp → CdrDeserializer.Read Field
  | .bool => tagged Field.bool d.deserilalizer_bool
  | .byte => tagged Field.byte d.deserialize_byte
  | .uint16 => tagged Field.uint16 d.deserialize_uint16
  | .int16 => tagged Field.int16 d.deserialize_int16
  | .uint32 => tagged Field.uint32 d.deserialize_uint32
  | .int32 => tagged Field.int32 d.deserialize_int32
  | .uint64 => tagged Field.uint64 d.deserialize_uint64
  | .int64 => tagged Field.int64 d.deserialize_int64
  | .string => tagged Field.string d.deserialize_string

/-- Perform the read operations in order on one deserializer, collecting the
outcome of each (`some v`: returned `true` with `v`; `none`: returned `false`).
The whole evaluates to `none` when some read dereferences an index outside the
buffer. -/
def CdrDeserializer.readAll (d : CdrDeserializer) : List ReadOp → Option (List (Option Field) × CdrDeserializer)
  | [] => some ([], d)
  | op :: ops =>
    match d.read op with
    | none => none
    | some (r, d1) =>
      match d1.readAll ops with
      | none => none
      | some (rs, d2) => some (r :: rs, d2)

/-- The string literal `"Hello DDS!"` of the test. -/
def helloDDS : List Byte := [72, 101, 108, 108, 111, 32, 68, 68, 83, 33]

/-- The four fields of `tests/test_cdr.cpp`. -/
def testFields : List Field :=
  [.byte 0xAB, .uint16 0x1234, .uint32 0xAABBCCDD, .string helloDDS]



/-! ## Vocabulary of the statements -/

/-- The number of padding bytes in front of a value of natural size `alignment`
at offset `pos`. -/
def padding (alignment pos : Nat) : Nat := (alignment - pos % alignment) % alignment

/-- The `size` bytes of the integer `v` in the configured byte order: native
(little-endian) order, or the reverse when `swap` is set. -/
def wireBytes (swap : Bool) (size v : Nat) : List Byte :=
  if swap then ((List.range size).map (objByte v)).reverse
  else (List.range size).map (objByte v)

/-- The integer that `size` bytes on the wire stand for in the configured byte
order. -/
def wireValue (swap : Bool) (bytes : List Byte) : Nat :=
  if swap then fromObjBytes bytes.reverse else fromObjBytes bytes

/-- The bytes `buffer[pos .. pos + size - 1]`. -/
def window (buffer : List Byte) (pos size : Nat) : List Byte := (buffer.drop pos).take size

/-- The natural size of the value a read operation consumes first: 1 for the
byte-granular reads, 2, 4 or 8 for the aligned integers, and 4 (the length
field) for a string. -/
def ReadOp.size : ReadOp → Nat
  | .bool => 1
  | .byte => 1
  | .uint16 => 2
  | .int16 => 2
  | .uint32 => 4
  | .int32 => 4
  | .uint64 => 8
  | .int64 => 8
  | .string => 4

/-- The writer state `after` is `before` followed by the padding of a value of
natural size `n`, all zero, and by `n` bytes that stand for `u` (reduced to `n`
bytes); the value starts at a multiple of `n` and the buffer ends at a multiple
of `n`. -/
def AlignedWrite (n u : Nat) (before after : CdrSerializer) : Prop :=
  after.buffer_ = before.buffer_
      ++ List.replicate ((n - before.buffer_.length % n) % n) (0 : Byte)
      ++ wireBytes before.swap_bytes_ n u
    ∧ (wireBytes before.swap_bytes_ n u).length = n
    ∧ wireValue before.swap_bytes_ (wireBytes before.swap_bytes_ n u) = u % 256 ^ n
    ∧ (before.buffer_.length + (n - before.buffer_.length % n) % n) % n = 0
    ∧ after.buffer_.length % n = 0

instance (n u : Nat) (before after : CdrSerializer) : Decidable (AlignedWrite n u before after) := by
  unfold AlignedWrite
  infer_instance

/-! ## SequenceNumber (`include/tinydds/rtps/sequence_number.hpp`)

`high` is an `int32_t` and `low` a `uint32_t`.  The shifts and the bitwise
operators of the source act on the two's complement representation, which is
the unsigned integer given by `unsignedRepr`.  Signed overflow (`++high` at
`2 ^ 31 - 1`, a 64-bit sum or difference outside the `int64_t` range) is
undefined behaviour in C++; the model computes the exact integer there, and the
statements below exclude those inputs. -/

/-- The members of `SequenceNumber`. -/
structure SequenceNumber where
  high : Int
  low : Nat
deriving DecidableEq

namespace SequenceNumber

/-- Both halves lie in the range of their C++ type. -/
def InRange (s : SequenceNumber) : Prop :=
  -(2 : Int) ^ 31 ≤ s.high ∧ s.high < (2 : Int) ^ 31 ∧ s.low < 2 ^ 32

instance (s : SequenceNumber) : Decidable s.InRange := by
  unfold InRange
  infer_instance

/-- The default constructor. -/
def zero : SequenceNumber := ⟨0, 0⟩

/-- The constructor `SequenceNumber(int64_t value)`:
`high = static_cast<int32_t>(value >> 32)`,
`low = static_cast<uint32_t>(value & 0xFFFFFFFF)`. -/
def ofInt64 (value : Int) : SequenceNumber :=
  { high := signedValue 4 (unsignedRepr 4 (value >>> (32 : Nat))),
    low := (unsignedRepr 8 value &&& 0xFFFFFFFF) % 2 ^ 32 }

/-- The constructor `SequenceNumber(int32_t high, uint32_t low)`. -/
def ofHalves (high : Int) (low : Nat) : SequenceNumber := ⟨high, low⟩

/-- The method `to_int64`:
`(static_cast<int64_t>(high) << 32) | static_cast<int64_t>(low)`. -/
def to_int64 (s : SequenceNumber) : Int :=
  signedValue 8 (((unsignedRepr 8 s.high <<< 32) % 2 ^ 64) ||| unsignedRepr 8 (s.low : Int))

/-- The operator `==`. -/
def eq (s other : SequenceNumber) : Bool :=
  decide (s.high = other.high) && decide (s.low = other.low)

/-- The operator `!=`. -/
def ne (s other : SequenceNumber) : Bool := !(s.eq other)

/-- The operator `<`. -/
def lt (s other : SequenceNumber) : Bool :=
  if s.high ≠ other.high then decide (s.high < other.high)
  else decide (s.low < other.low)

/-- The operator `<=`. -/
def le (s other : SequenceNumber) : Bool := s.lt other || s.eq other

/-- The operator `>`. -/
def gt (s other : SequenceNumber) : Bool := !(s.le other)

/-- The pre-increment operator `++seq`: the counter after the call, which is
also the value of the expression. -/
def preIncrement (s : SequenceNumber) : SequenceNumber :=
  let s1 : SequenceNumber := { s with low := (s.low + 1) % 2 ^ 32 }
  if s1.low = 0 then { s1 with high := s1.high + 1 } else s1

/-- The post-increment operator `seq++`: the value returned and the counter
after the call. -/
def postIncrement (s : SequenceNumber) : SequenceNumber × SequenceNumber :=
  let old := s
  (old, s.preIncrement)

/-- The operator `+` with an `int64_t`. -/
def add (s : SequenceNumber) (value : Int) : SequenceNumber := ofInt64 (s.to_int64 + value)

/-- The operator `-` with an `int64_t`. -/
def sub (s : SequenceNumber) (value : Int) : SequenceNumber := ofInt64 (s.to_int64 - value)

/-- The operator `-` between two counters. -/
def diff (s other : SequenceNumber) : Int := s.to_int64 - other.to_int64

/-- The constant `SEQUENCENUMBER_UNKNOWN`. -/
def SEQUENCENUMBER_UNKNOWN : SequenceNumber := ⟨-1, 0⟩

/-- The constant `SEQUENCENUMBER_ZERO`. -/
def SEQUENCENUMBER_ZERO : SequenceNumber := ⟨0, 0⟩

end SequenceNumber

/-! ## GUID (`include/tinydds/rtps/guid.hpp`)

A `std::array<uint8_t, N>` is a `Mathlib.Vector Byte N`. -/

/-- The comparison `operator<` of two `std::array`, which the C++ standard
library defines as `std::lexicographical_compare` of their elements. -/
def lexicographical_compare : List Byte → List Byte → Bool
  | [], [] => false
  | [], _ :: _ => true
  | _ :: _, [] => false
  | a :: as, b :: bs =>
    if a < b then true
    else if b < a then false
    else lexicographical_compare as bs

/-- The members of `GuidPrefix`. -/
structure GuidPrefix where
  value : Mathlib.Vector Byte 12
deriving DecidableEq

/-- The members of `EntityId`. -/
structure EntityId where
  value : Mathlib.Vector Byte 4
deriving DecidableEq

/-- The members of `GUID`; the member `prefix` is spelled `prefix_` here. -/
structure GUID where
  prefix_ : GuidPrefix
  entityId : EntityId
deriving DecidableEq

/-- The default constructor of `GuidPrefix`. -/
def GuidPrefix.init : GuidPrefix := ⟨Mathlib.Vector.replicate 12 0⟩

/-- The operator `==` of `GuidPrefix`. -/
def GuidPrefix.eq (p other : GuidPrefix) : Bool := decide (p.value = other.value)

/-- The default constructor of `EntityId`. -/
def EntityId.init : EntityId := ⟨Mathlib.Vector.replicate 4 0⟩

/-- The constructor of `EntityId` from four bytes. -/
def EntityId.ofBytes (b0 b1 b2 b3 : Byte) : EntityId :=
  ⟨((((Mathlib.Vector.replicate 4 (0 : Byte)).set 0 b0).set 1 b1).set 2 b2).set 3 b3⟩

/-- The operator `==` of `EntityId`. -/
def EntityId.eq (e other : EntityId) : Bool := decide (e.value = other.value)

namespace GUID

/-- The operator `==`. -/
def eq (g other : GUID) : Bool := g.prefix_.eq other.prefix_ && g.entityId.eq other.entityId

/-- The operator `!=`. -/
def ne (g other : GUID) : Bool := !(g.eq other)

/-- The operator `<`. -/
def lt (g other : GUID) : Bool :=
  if g.prefix_.value ≠ other.prefix_.value then
    lexicographical_compare g.prefix_.value.toList other.prefix_.value.toList
  else
    lexicographical_compare g.entityId.value.toList other.entityId.value.toList

/-- The 16 bytes of a GUID: those of the prefix, then those of the entity id. -/
def bytes (g : GUID) : List Byte := g.prefix_.value.toList ++ g.entityId.value.toList

end GUID

/-- The constant `ENTITYID_UNKNOWN`. -/
def ENTITYID_UNKNOWN : EntityId := EntityId.ofBytes 0x00 0x00 0x00 0x00

/-- The constant `ENTITYID_PARTICIPANT`. -/
def ENTITYID_PARTICIPANT : EntityId := EntityId.ofBytes 0x00 0x00 0x01 0xC1

/-! ## Locator (`include/tinydds/rtps/locator.hpp`)

The constructor and `get_ipv4_string` call the C library functions `inet_pton`
and `inet_ntop`, which are not part of the repository: they are parameters of
the model.

* `inet_pton text` stands for `inet_pton(AF_INET, text, &addr)`: it is
  `some bytes` when the call returns 1, `bytes` being the four bytes of
  `addr.s_addr` in memory order (network byte order), and `none` when the call
  returns anything else.
* `inet_ntop bytes` stands for `inet_ntop(AF_INET, &addr, buffer, 16)` with
  `bytes` stored in `addr.s_addr`: it is `some text` when the call returns
  `buffer`, holding the characters `text`, and `none` when it returns
  `nullptr`.

A text is a `List Byte`, as every `std::string`. -/

/-- The enumeration `LocatorKind`, with underlying type `int32_t`. -/
inductive LocatorKind
  | LOCATOR_KIND_INVALID
  | LOCATOR_KIND_RESERVED
  | LOCATOR_KIND_UDPv4
  | LOCATOR_KIND_UDPv6
deriving DecidableEq

/-- The value of each enumerator. -/
def LocatorKind.toInt32 : LocatorKind → Int
  | .LOCATOR_KIND_INVALID => -1
  | .LOCATOR_KIND_RESERVED => 0
  | .LOCATOR_KIND_UDPv4 => 1
  | .LOCATOR_KIND_UDPv6 => 2

/-- The members of `Locator`. -/
structure Locator where
  kind : LocatorKind
  port : Nat
  address : Mathlib.Vector Byte 16
deriving DecidableEq

/-- The characters a `const char*` denotes: those in front of the first zero
byte.  This is what `c_str()` hands to a C function and what
`std::string(buffer)` keeps of a character buffer. -/
def c_str (text : List Byte) : List Byte := text.takeWhile (fun b => b != 0)

namespace Locator

/-- The default constructor. -/
def init : Locator :=
  { kind := LocatorKind.LOCATOR_KIND_INVALID, port := 0, address := Mathlib.Vector.replicate 16 0 }

/-- The constructor `Locator(const std::string& ipv4_str, uint32_t port_num)`. -/
def ofString (inet_pton : List Byte → Option (Mathlib.Vector Byte 4)) (ipv4_str : List Byte)
    (port_num : Nat) : Locator :=
  let address : Mathlib.Vector Byte 16 := Mathlib.Vector.replicate 16 0
  match inet_pton (c_str ipv4_str) with
  | some ip_bytes =>
    { kind := LocatorKind.LOCATOR_KIND_UDPv4, port := port_num,
      address := (((address.set 12 (ip_bytes.get 0)).set 13 (ip_bytes.get 1)).set 14
        (ip_bytes.get 2)).set 15 (ip_bytes.get 3) }
  | none =>
    { kind := LocatorKind.LOCATOR_KIND_UDPv4, port := port_num, address := address }

/-- The method `get_ipv4_string`. -/
def get_ipv4_string (inet_ntop : Mathlib.Vector Byte 4 → Option (List Byte)) (loc : Locator) :
    List Byte :=
  if loc.kind ≠ LocatorKind.LOCATOR_KIND_UDPv4 then []
  else
    let ip_bytes : Mathlib.Vector Byte 4 :=
      ((((Mathlib.Vector.replicate 4 (0 : Byte)).set 0 (loc.address.get 12)).set 1
        (loc.address.get 13)).set 2 (loc.address.get 14)).set 3 (loc.address.get 15)
    match inet_ntop ip_bytes with
    | some buffer => c_str buffer
    | none => []

/-- The method `is_multicast`. -/
def is_multicast (loc : Locator) : Bool :=
  if loc.kind ≠ LocatorKind.LOCATOR_KIND_UDPv4 then false
  else decide (loc.address.get 12 ≥ 224) && decide (loc.address.get 12 ≤ 239)

/-- The method `is_valid`. -/
def is_valid (loc : Locator) : Bool := decide (loc.kind ≠ LocatorKind.LOCATOR_KIND_INVALID)

/-- The operator `==`. -/
def eq (loc other : Locator) : Bool :=
  decide (loc.kind = other.kind) && decide (loc.port = other.port)
    && decide (loc.address = other.address)

end Locator

/-! ### Dotted-decimal text

The vocabulary of the statements about `inet_pton` and `inet_ntop`, and one
instance of the two parameters on which the statements are evaluated. -/

/-- The bytes of an ASCII string literal. -/
def ascii (s : String) : List Byte := s.data.map (fun c => toByte c.toNat)

/-- The ASCII decimal digits of a number below 1000, without leading zeros. -/
def decimal (n : Nat) : List Byte :=
  if n < 10 then [toByte (48 + n)]
  else if n < 100 then [toByte (48 + n / 10), toByte (48 + n % 10)]
  else [toByte (48 + n / 100), toByte (48 + n / 10 % 10), toByte (48 + n % 10)]

/-- The canonical dotted-decimal text `a.b.c.d` of four bytes. -/
def dottedQuad (a b c d : Byte) : List Byte :=
  decimal a.val ++ [46] ++ decimal b.val ++ [46] ++ decimal c.val ++ [46] ++ decimal d.val

/-- The four bytes `a`, `b`, `c`, `d` as the content of `addr.s_addr`. -/
def quad (a b c d : Byte) : Mathlib.Vector Byte 4 := ⟨[a, b, c, d], rfl⟩

/-- Read one decimal octet at the head of a text: one to three digits, no
leading zero in front of another digit, value at most 255.  The result is the
octet and the text behind it. -/
def parseOctet (text : List Byte) : Option (Byte × List Byte) :=
  let digits := text.takeWhile (fun b => decide (48 ≤ b.val) && decide (b.val ≤ 57))
  let rest := text.dropWhile (fun b => decide (48 ≤ b.val) && decide (b.val ≤ 57))
  let value := digits.foldl (fun acc b => 10 * acc + (b.val - 48)) 0
  if digits.length = 0 ∨ 3 < digits.length then none
  else if 1 < digits.length ∧ digits.head? = some 48 then none
  else if 255 < value then none
  else some (toByte value, rest)

/-- An instance of the parameter `inet_pton`: it accepts exactly the texts
`ddd.ddd.ddd.ddd` of four decimal octets as read by `parseOctet`. -/
def dottedQuadParser (text : List Byte) : Option (Mathlib.Vector Byte 4) :=
  match parseOctet text with
  | some (a, 46 :: t1) =>
    match parseOctet t1 with
    | some (b, 46 :: t2) =>
      match parseOctet t2 with
      | some (c, 46 :: t3) =>
        match parseOctet t3 with
        | some (d, []) => some (quad a b c d)
        | _ => none
      | _ => none
    | _ => none
  | _ => none

/-- An instance of the parameter `inet_ntop`: the canonical dotted-decimal text
of the four bytes; it never fails. -/
def dottedQuadPrinter (bytes : Mathlib.Vector Byte 4) : Option (List Byte) :=
  some (dottedQuad (bytes.get 0) (bytes.get 1) (bytes.get 2) (bytes.get 3))

/-- The outcome `result` of a read of natural size `n` from the state `d`: with
`a` the cursor moved over the padding, the read returns `true` iff
`a + n ≤ length`, and then yields `decode` of the integer whose native-order
bytes are `buffer[a .. a + n - 1]` and leaves the cursor at `a + n`. -/
def FixedRead {α : Type} (n : Nat) (decode : Nat → α) (d : CdrDeserializer)
    (result : CdrDeserializer.Read α) : Prop :=
  result =
    if d.pos_ + (n - d.pos_ % n) % n + n ≤ d.buffer_.length then
      some (some (decode (fromObjBytes (window d.buffer_ (d.pos_ + (n - d.pos_ % n) % n) n))),
        { d with pos_ := d.pos_ + (n - d.pos_ % n) % n + n })
    else some (none, { d with pos_ := d.pos_ + (n - d.pos_ % n) % n })

/-! ### The hash of a GUID

The specialisation `std::hash<tinydds::rtps::GUID>` of `guid.hpp` calls
`std::hash<uint8_t>` of the C++ standard library, which is a parameter of the
model.  A `size_t` has 64 bits: the shifted value is reduced modulo `2 ^ 64`. -/

/-- The per-byte hash that converts the byte to `size_t` unchanged, the
`std::hash<uint8_t>` of the common standard libraries. -/
def identityHash (b : Byte) : Nat := b.val

/-- The `operator()` of `std::hash<tinydds::rtps::GUID>`, with `byteHash` for
`std::hash<uint8_t>{}`. -/
def GUID.hash (byteHash : Byte → Nat) (guid : GUID) : Nat :=
  let h0 : Nat := 0
  let h1 := (List.finRange 12).foldl
    (fun h i => h ^^^ ((byteHash (guid.prefix_.value.get i) <<< i.val) % 2 ^ 64)) h0
  (List.finRange 4).foldl
    (fun h i => h ^^^ ((byteHash (guid.entityId.value.get i) <<< (i.val + 12)) % 2 ^ 64)) h1

/-- The xor of the hashed bytes of a list, the one at index `i` shifted left by
`off + i` bits within 64 bits. -/
def xorShifted (byteHash : Byte → Nat) (off : Nat) : List Byte → Nat
  | [] => 0
  | b :: bs => ((byteHash b <<< off) % 2 ^ 64) ^^^ xorShifted byteHash (off + 1) bs

/-! ## Auxiliary facts -/

theorem toByte_val (n : Nat) : (toByte n).val = n % 256 := rfl

theorem objByte_succ (v i : Nat) : objByte v (i + 1) = objByte (v / 256) i := by
  unfold objByte
  rw [pow_succ, Nat.mul_comm, Nat.div_div_eq_div_mul]

theorem range_map_reverse {α : Type} (f : Nat → α) (n : Nat) :
    (List.range n).map (fun i => f (n - 1 - i)) = ((List.range n).map f).reverse := by
  apply List.ext_getElem
  · simp
  · intro i h1 h2
    simp at h1
    simp [List.getElem_reverse]

/-- The little-endian bytes of `v` decode to `v` reduced modulo `256 ^ n`. -/
theorem fromObjBytes_objByte (n v : Nat) :
    fromObjBytes ((List.range n).map (objByte v)) = v % 256 ^ n := by
  induction n generalizing v with
  | zero => simp [fromObjBytes, Nat.mod_one]
  | succ k ih =>
    rw [List.range_succ_eq_map, List.map_cons, List.map_map]
    have h : (objByte v ∘ Nat.succ) = objByte (v / 256) := by
      funext i
      exact objByte_succ v i
    rw [h, fromObjBytes, ih, pow_succ', Nat.mod_mul]
    simp [objByte, toByte_val]

theorem derefAll_of_lt (buffer : List Byte) (indices : List Nat)
    (h : ∀ i ∈ indices, i < buffer.length) :
    derefAll buffer indices = some (indices.map (fun i => buffer.getD i 0)) := by
  induction indices with
  | nil => rfl
  | cons i rest ih =>
    have hi : i < buffer.length := h i (List.mem_cons_self _ _)
    have hr : ∀ j ∈ rest, j < buffer.length := fun j hj => h j (List.mem_cons_of_mem _ hj)
    simp [derefAll, ih hr, List.getElem?_eq_getElem hi, List.getD_eq_getElem?_getD]

/-- Reading a contiguous run out of the middle of a buffer. -/
theorem derefAll_middle (pre mid post : List Byte) :
    derefAll (pre ++ mid ++ post) ((List.range mid.length).map (fun i => pre.length + i)) = some mid := by
  rw [derefAll_of_lt]
  · congr 1
    apply List.ext_getElem
    · simp
    · intro i h1 h2
      simp at h1
      simp [List.getD_eq_getElem?_getD, List.getElem?_append_right, List.getElem?_append_left, h1, h2]
  · intro i hi
    simp at hi
    obtain ⟨a, ha, rfl⟩ := hi
    simp
    omega

theorem wireBytes_length (swap : Bool) (size v : Nat) : (wireBytes swap size v).length = size := by
  unfold wireBytes
  split <;> simp

theorem wireValue_wireBytes (swap : Bool) (size v : Nat) :
    wireValue swap (wireBytes swap size v) = v % 256 ^ size := by
  unfold wireValue wireBytes
  cases swap <;> simp [fromObjBytes_objByte]

theorem window_middle (pre mid post : List Byte) :
    window (pre ++ mid ++ post) pre.length mid.length = mid := by
  simp [window, List.append_assoc]

theorem map_getD_eq_window (buffer : List Byte) (pos size : Nat) (h : pos + size ≤ buffer.length) :
    (List.range size).map (fun i => buffer.getD (pos + i) 0) = window buffer pos size := by
  apply List.ext_getElem
  · simp [window]
    omega
  · intro i h1 h2
    simp at h1
    have h3 : pos + i < buffer.length := by omega
    simp [window, List.getD_eq_getElem?_getD, List.getElem?_eq_getElem h3]

namespace CdrSerializer

theorem writer_align_eq (s : CdrSerializer) (n : Nat) :
    s.align n = { s with buffer_ := s.buffer_ ++ List.replicate (padding n s.buffer_.length) 0 } := rfl

theorem write_value_eq (s : CdrSerializer) (size v : Nat) :
    s.write_value size v = { s with buffer_ := s.buffer_ ++ wireBytes s.swap_bytes_ size v } := by
  unfold write_value wireBytes
  split <;> simp [range_map_reverse, *]

/-- An aligned write: padding, then the value bytes. -/
theorem align_write_value (s : CdrSerializer) (n v : Nat) :
    (s.align n).write_value n v =
      { s with buffer_ := s.buffer_ ++ List.replicate (padding n s.buffer_.length) 0
                            ++ wireBytes s.swap_bytes_ n v } := by
  rw [write_value_eq, writer_align_eq]

end CdrSerializer

namespace CdrDeserializer

theorem reader_align_eq (d : CdrDeserializer) (n : Nat) :
    d.align n = { d with pos_ := d.pos_ + padding n d.pos_ } := rfl

theorem read_value_fail (d : CdrDeserializer) (size : Nat) (h : d.buffer_.length < d.pos_ + size) :
    d.read_value size = some (none, d) := by
  unfold read_value
  simp [h]

theorem read_value_ok (d : CdrDeserializer) (size : Nat) (h : d.pos_ + size ≤ d.buffer_.length) :
    d.read_value size =
      some (some (wireValue d.swap_bytes_ (window d.buffer_ d.pos_ size)),
            { d with pos_ := d.pos_ + size }) := by
  unfold read_value
  have hn : ¬ (d.pos_ + size > d.buffer_.length) := by omega
  rw [if_neg hn]
  have hidx : (List.range size).map (fun i => d.pos_ + size - 1 - i)
      = ((List.range size).map (fun i => d.pos_ + i)).reverse := by
    rw [← range_map_reverse (fun i => d.pos_ + i)]
    apply List.map_congr_left
    intro i hi
    simp at hi
    omega
  have hlt : ∀ i ∈ (List.range size).map (fun i => d.pos_ + i), i < d.buffer_.length := by
    intro i hi
    simp at hi
    obtain ⟨a, ha, rfl⟩ := hi
    omega
  cases hs : d.swap_bytes_
  · simp only [Bool.false_eq_true, if_false]
    rw [derefAll_of_lt _ _ hlt, List.map_map]
    have := map_getD_eq_window d.buffer_ d.pos_ size h
    simp only [Function.comp_def, this, wireValue, Bool.false_eq_true, if_false]
  · simp only [if_true, hidx]
    rw [derefAll_of_lt _ _ (by simpa using hlt)]
    rw [List.map_reverse, List.map_map]
    have := map_getD_eq_window d.buffer_ d.pos_ size h
    simp only [Function.comp_def, this, wireValue, if_true]

end CdrDeserializer

theorem signedValue_unsignedRepr_2 (v : Int) (h1 : -(2 : Int) ^ 15 ≤ v) (h2 : v < (2 : Int) ^ 15) :
    signedValue 2 (unsignedRepr 2 v % 256 ^ 2) = v := by
  unfold signedValue unsignedRepr
  norm_num at *
  split <;> omega

theorem signedValue_unsignedRepr_4 (v : Int) (h1 : -(2 : Int) ^ 31 ≤ v) (h2 : v < (2 : Int) ^ 31) :
    signedValue 4 (unsignedRepr 4 v % 256 ^ 4) = v := by
  unfold signedValue unsignedRepr
  norm_num at *
  split <;> omega

theorem signedValue_unsignedRepr_8 (v : Int) (h1 : -(2 : Int) ^ 63 ≤ v) (h2 : v < (2 : Int) ^ 63) :
    signedValue 8 (unsignedRepr 8 v % 256 ^ 8) = v := by
  unfold signedValue unsignedRepr
  norm_num at *
  split <;> omega

/-- Reading back, at the offset where the write started, a value written with
alignment `n`. -/
theorem read_aligned_written (pre post : List Byte) (swap : Bool) (n v : Nat) :
    ((CdrDeserializer.mk (pre ++ List.replicate (padding n pre.length) 0 ++ wireBytes swap n v ++ post)
        pre.length swap).align n).read_value n
      = some (some (v % 256 ^ n),
          CdrDeserializer.mk (pre ++ List.replicate (padding n pre.length) 0 ++ wireBytes swap n v ++ post)
            (pre.length + padding n pre.length + n) swap) := by
  rw [CdrDeserializer.reader_align_eq, CdrDeserializer.read_value_ok]
  · simp only
    have hw := window_middle (pre ++ List.replicate (padding n pre.length) 0) (wireBytes swap n v) post
    simp only [List.length_append, List.length_replicate, wireBytes_length] at hw
    rw [hw, wireValue_wireBytes]
  · simp [wireBytes_length]
    omega


theorem write_extends (s : CdrSerializer) (f : Field) :
    ∃ ext, (s.write f).buffer_ = s.buffer_ ++ ext := by
  cases f <;>
    simp only [CdrSerializer.write, CdrSerializer.serialize_bool, CdrSerializer.serialize_byte,
      CdrSerializer.serialize_uint16, CdrSerializer.serialize_int16, CdrSerializer.serialize_uint32,
      CdrSerializer.serialize_int32, CdrSerializer.serialize_uint64, CdrSerializer.serialize_int64,
      CdrSerializer.serialize_string, CdrSerializer.align_write_value, List.append_assoc] <;>
    exact ⟨_, rfl⟩

theorem write_swap (s : CdrSerializer) (f : Field) :
    (s.write f).swap_bytes_ = s.swap_bytes_ := by
  cases f <;>
    simp only [CdrSerializer.write, CdrSerializer.serialize_bool, CdrSerializer.serialize_byte,
      CdrSerializer.serialize_uint16, CdrSerializer.serialize_int16, CdrSerializer.serialize_uint32,
      CdrSerializer.serialize_int32, CdrSerializer.serialize_uint64, CdrSerializer.serialize_int64,
      CdrSerializer.serialize_string, CdrSerializer.align_write_value]

/-- The string written by `serialize_string` is read back by
`deserialize_string` placed where the write started. -/
theorem string_read_write (s : CdrSerializer) (v post : List Byte) (hv : v.length < 2 ^ 32 - 1) :
    (CdrDeserializer.mk ((s.serialize_string v).buffer_ ++ post) s.buffer_.length
        s.swap_bytes_).deserialize_string
      = some (some v, CdrDeserializer.mk ((s.serialize_string v).buffer_ ++ post)
          (s.serialize_string v).buffer_.length s.swap_bytes_) := by
  have hlen : (v.length + 1) % 2 ^ 32 = v.length + 1 := Nat.mod_eq_of_lt (by omega)
  have hbuf : (s.serialize_string v).buffer_ ++ post
      = s.buffer_ ++ List.replicate (padding 4 s.buffer_.length) 0
          ++ wireBytes s.swap_bytes_ 4 (v.length + 1) ++ (v ++ [0] ++ post) := by
    simp only [CdrSerializer.serialize_string, CdrSerializer.serialize_uint32,
      CdrSerializer.align_write_value, hlen, List.append_assoc]
  have hsize : (s.serialize_string v).buffer_.length
      = s.buffer_.length + padding 4 s.buffer_.length + 4 + (v.length + 1) := by
    simp only [CdrSerializer.serialize_string, CdrSerializer.serialize_uint32,
      CdrSerializer.align_write_value, hlen, List.length_append, wireBytes_length,
      List.length_replicate, List.length_singleton]
    omega
  rw [hsize, hbuf]
  unfold CdrDeserializer.deserialize_string CdrDeserializer.deserialize_uint32
  rw [read_aligned_written]
  have hmod : (v.length + 1) % 256 ^ 4 = v.length + 1 := Nat.mod_eq_of_lt (by norm_num; omega)
  simp only [hmod]
  have hne : ¬ (v.length + 1 = 0) := by omega
  rw [if_neg hne]
  have hfit : ¬ (s.buffer_.length + padding 4 s.buffer_.length + 4 + (v.length + 1)
      > (s.buffer_ ++ List.replicate (padding 4 s.buffer_.length) 0
          ++ wireBytes s.swap_bytes_ 4 (v.length + 1) ++ (v ++ [0] ++ post)).length) := by
    simp [wireBytes_length]
    omega
  rw [if_neg hfit]
  have hfirst : ∃ b, (s.buffer_ ++ List.replicate (padding 4 s.buffer_.length) 0
          ++ wireBytes s.swap_bytes_ 4 (v.length + 1)
          ++ (v ++ [0] ++ post))[s.buffer_.length + padding 4 s.buffer_.length + 4]? = some b := by
    have : s.buffer_.length + padding 4 s.buffer_.length + 4 < (s.buffer_ ++ List.replicate (padding 4 s.buffer_.length) 0
          ++ wireBytes s.swap_bytes_ 4 (v.length + 1) ++ (v ++ [0] ++ post)).length := by
      simp [wireBytes_length]
      omega
    exact ⟨_, List.getElem?_eq_getElem this⟩
  obtain ⟨b, hb⟩ := hfirst
  simp only [hb]
  have hmid := derefAll_middle (s.buffer_ ++ List.replicate (padding 4 s.buffer_.length) 0
          ++ wireBytes s.swap_bytes_ 4 (v.length + 1)) v ([0] ++ post)
  simp only [List.length_append, List.length_replicate, wireBytes_length, List.append_assoc,
    ← Nat.add_assoc] at hmid
  simp only [Nat.add_sub_cancel, List.append_assoc, hmid]

theorem getElem?_at_length (l : List Byte) (v : Byte) (post : List Byte) :
    (l ++ v :: post)[l.length]? = some v := by
  rw [List.getElem?_append_right (Nat.le_refl _)]
  simp

theorem byte_read_write (s : CdrSerializer) (v : Byte) (post : List Byte) :
    (CdrDeserializer.mk (s.buffer_ ++ [v] ++ post) s.buffer_.length s.swap_bytes_).deserialize_byte
      = some (some v, CdrDeserializer.mk (s.buffer_ ++ [v] ++ post) (s.buffer_.length + 1)
          s.swap_bytes_) := by
  unfold CdrDeserializer.deserialize_byte
  simp only [List.append_assoc, List.singleton_append, getElem?_at_length]
  have h : ¬ (s.buffer_.length ≥ (s.buffer_ ++ v :: post).length) := by simp
  rw [if_neg h]

theorem bool_read_write (s : CdrSerializer) (v : Bool) (post : List Byte) :
    (CdrDeserializer.mk (s.buffer_ ++ [if v then (1 : Byte) else 0] ++ post) s.buffer_.length
        s.swap_bytes_).deserilalizer_bool
      = some (some v, CdrDeserializer.mk (s.buffer_ ++ [if v then (1 : Byte) else 0] ++ post)
          (s.buffer_.length + 1) s.swap_bytes_) := by
  unfold CdrDeserializer.deserilalizer_bool
  simp only [List.append_assoc, List.singleton_append, getElem?_at_length]
  have h : ¬ (s.buffer_.length ≥ (s.buffer_ ++ (if v then (1 : Byte) else 0) :: post).length) := by
    simp
  rw [if_neg h]
  cases v <;> simp

/-- One field written by `write` is read back by `read` placed where the write
started, whatever follows it in the buffer. -/
theorem read_write (s : CdrSerializer) (f : Field) (hf : f.InRange) (post : List Byte) :
    (CdrDeserializer.mk ((s.write f).buffer_ ++ post) s.buffer_.length s.swap_bytes_).read f.op
      = some (some f, CdrDeserializer.mk ((s.write f).buffer_ ++ post) (s.write f).buffer_.length
          s.swap_bytes_) := by
  cases f with
  | bool v =>
    simp only [CdrSerializer.write, Field.op, CdrDeserializer.read, CdrSerializer.serialize_bool,
      bool_read_write, CdrDeserializer.tagged, List.length_append, List.length_singleton]
  | byte v =>
    simp only [CdrSerializer.write, Field.op, CdrDeserializer.read, CdrSerializer.serialize_byte,
      byte_read_write, CdrDeserializer.tagged, List.length_append, List.length_singleton]
  | uint16 v =>
    have hv : v % 256 ^ 2 = v := Nat.mod_eq_of_lt (by simp only [Field.InRange] at hf; norm_num; omega)
    simp only [CdrSerializer.write, Field.op, CdrDeserializer.read, CdrSerializer.serialize_uint16,
      CdrDeserializer.deserialize_uint16, CdrSerializer.align_write_value, read_aligned_written,
      CdrDeserializer.tagged, hv, List.length_append, List.length_replicate, wireBytes_length]
  | int16 v =>
    have hv := signedValue_unsignedRepr_2 v hf.1 hf.2
    simp only [CdrSerializer.write, Field.op, CdrDeserializer.read, CdrSerializer.serialize_int16,
      CdrDeserializer.deserialize_int16, CdrSerializer.align_write_value, read_aligned_written,
      CdrDeserializer.tagged, CdrDeserializer.asSigned, hv, List.length_append,
      List.length_replicate, wireBytes_length]
  | uint32 v =>
    have hv : v % 256 ^ 4 = v := Nat.mod_eq_of_lt (by simp only [Field.InRange] at hf; norm_num; omega)
    simp only [CdrSerializer.write, Field.op, CdrDeserializer.read, CdrSerializer.serialize_uint32,
      CdrDeserializer.deserialize_uint32, CdrSerializer.align_write_value, read_aligned_written,
      CdrDeserializer.tagged, hv, List.length_append, List.length_replicate, wireBytes_length]
  | int32 v =>
    have hv := signedValue_unsignedRepr_4 v hf.1 hf.2
    simp only [CdrSerializer.write, Field.op, CdrDeserializer.read, CdrSerializer.serialize_int32,
      CdrDeserializer.deserialize_int32, CdrSerializer.align_write_value, read_aligned_written,
      CdrDeserializer.tagged, CdrDeserializer.asSigned, hv, List.length_append,
      List.length_replicate, wireBytes_length]
  | uint64 v =>
    have hv : v % 256 ^ 8 = v := Nat.mod_eq_of_lt (by simp only [Field.InRange] at hf; norm_num; omega)
    simp only [CdrSerializer.write, Field.op, CdrDeserializer.read, CdrSerializer.serialize_uint64,
      CdrDeserializer.deserialize_uint64, CdrSerializer.align_write_value, read_aligned_written,
      CdrDeserializer.tagged, hv, List.length_append, List.length_replicate, wireBytes_length]
  | int64 v =>
    have hv := signedValue_unsignedRepr_8 v hf.1 hf.2
    simp only [CdrSerializer.write, Field.op, CdrDeserializer.read, CdrSerializer.serialize_int64,
      CdrDeserializer.deserialize_int64, CdrSerializer.align_write_value, read_aligned_written,
      CdrDeserializer.tagged, CdrDeserializer.asSigned, hv, List.length_append,
      List.length_replicate, wireBytes_length]
  | string v =>
    simp only [CdrSerializer.write, Field.op, CdrDeserializer.read,
      string_read_write s v post hf, CdrDeserializer.tagged]

theorem writeAll_extends (s : CdrSerializer) (fs : List Field) :
    ∃ ext, (s.writeAll fs).buffer_ = s.buffer_ ++ ext := by
  induction fs generalizing s with
  | nil => exact ⟨[], by simp [CdrSerializer.writeAll]⟩
  | cons f fs ih =>
    obtain ⟨e1, h1⟩ := write_extends s f
    obtain ⟨e2, h2⟩ := ih (s.write f)
    exact ⟨e1 ++ e2, by rw [CdrSerializer.writeAll, h2, h1, List.append_assoc]⟩

/-- A sequence of fields written by `writeAll` is read back by `readAll` placed
where the writes started, whatever follows in the buffer. -/
theorem readAll_writeAll (fs : List Field) (hfs : ∀ f ∈ fs, f.InRange) (s : CdrSerializer)
    (post : List Byte) :
    (CdrDeserializer.mk ((s.writeAll fs).buffer_ ++ post) s.buffer_.length s.swap_bytes_).readAll
        (fs.map Field.op)
      = some (fs.map some, CdrDeserializer.mk ((s.writeAll fs).buffer_ ++ post)
          (s.writeAll fs).buffer_.length s.swap_bytes_) := by
  induction fs generalizing s with
  | nil => simp [CdrSerializer.writeAll, CdrDeserializer.readAll]
  | cons f fs ih =>
    have hf : f.InRange := hfs f (List.mem_cons_self _ _)
    have hr : ∀ g ∈ fs, g.InRange := fun g hg => hfs g (List.mem_cons_of_mem _ hg)
    obtain ⟨ext, hext⟩ := writeAll_extends (s.write f) fs
    have h1 := read_write s f hf (ext ++ post)
    have h2 := ih hr (s.write f)
    rw [write_swap] at h2
    simp only [CdrSerializer.writeAll, List.map_cons, CdrDeserializer.readAll]
    rw [hext, List.append_assoc, h1]
    simp only
    rw [← List.append_assoc, ← hext, h2]

/-! ## What each read evaluates to -/

namespace CdrDeserializer

theorem read_value_eq (d : CdrDeserializer) (size : Nat) :
    d.read_value size =
      if d.buffer_.length < d.pos_ + size then some (none, d)
      else some (some (wireValue d.swap_bytes_ (window d.buffer_ d.pos_ size)),
                 { d with pos_ := d.pos_ + size }) := by
  split
  · rename_i h
    exact read_value_fail d size h
  · rename_i h
    exact read_value_ok d size (by omega)

theorem aligned_read_eq (d : CdrDeserializer) (n : Nat) :
    (d.align n).read_value n =
      if d.buffer_.length < d.pos_ + padding n d.pos_ + n then
        some (none, { d with pos_ := d.pos_ + padding n d.pos_ })
      else some (some (wireValue d.swap_bytes_ (window d.buffer_ (d.pos_ + padding n d.pos_) n)),
                 { d with pos_ := d.pos_ + padding n d.pos_ + n }) := by
  rw [read_value_eq, reader_align_eq]

theorem deserialize_byte_eq (d : CdrDeserializer) :
    d.deserialize_byte =
      if h : d.pos_ < d.buffer_.length then
        some (some (d.buffer_.get ⟨d.pos_, h⟩), { d with pos_ := d.pos_ + 1 })
      else some (none, d) := by
  unfold deserialize_byte
  split
  · rename_i h
    have h2 : ¬ d.pos_ < d.buffer_.length := by omega
    rw [dif_neg h2]
  · rename_i h
    have h2 : d.pos_ < d.buffer_.length := by omega
    rw [dif_pos h2, List.getElem?_eq_getElem h2]
    rfl

theorem deserilalizer_bool_eq (d : CdrDeserializer) :
    d.deserilalizer_bool =
      if h : d.pos_ < d.buffer_.length then
        some (some (d.buffer_.get ⟨d.pos_, h⟩ != 0), { d with pos_ := d.pos_ + 1 })
      else some (none, d) := by
  unfold deserilalizer_bool
  split
  · rename_i h
    have h2 : ¬ d.pos_ < d.buffer_.length := by omega
    rw [dif_neg h2]
  · rename_i h
    have h2 : d.pos_ < d.buffer_.length := by omega
    rw [dif_pos h2, List.getElem?_eq_getElem h2]
    rfl

theorem deserialize_string_eq (d : CdrDeserializer) :
    d.deserialize_string =
      if d.buffer_.length < d.pos_ + padding 4 d.pos_ + 4 then
        some (none, { d with pos_ := d.pos_ + padding 4 d.pos_ })
      else if wireValue d.swap_bytes_ (window d.buffer_ (d.pos_ + padding 4 d.pos_) 4) = 0 then
        some (some [], { d with pos_ := d.pos_ + padding 4 d.pos_ + 4 })
      else if d.buffer_.length < d.pos_ + padding 4 d.pos_ + 4
          + wireValue d.swap_bytes_ (window d.buffer_ (d.pos_ + padding 4 d.pos_) 4) then
        some (none, { d with pos_ := d.pos_ + padding 4 d.pos_ + 4 })
      else
        some (some (window d.buffer_ (d.pos_ + padding 4 d.pos_ + 4)
                (wireValue d.swap_bytes_ (window d.buffer_ (d.pos_ + padding 4 d.pos_) 4) - 1)),
              { d with pos_ := d.pos_ + padding 4 d.pos_ + 4
                  + wireValue d.swap_bytes_ (window d.buffer_ (d.pos_ + padding 4 d.pos_) 4) }) := by
  unfold deserialize_string deserialize_uint32
  rw [aligned_read_eq]
  by_cases h1 : d.buffer_.length < d.pos_ + padding 4 d.pos_ + 4
  · simp only [if_pos h1]
  · simp only [if_neg h1]
    by_cases h2 : wireValue d.swap_bytes_ (window d.buffer_ (d.pos_ + padding 4 d.pos_) 4) = 0
    · simp only [if_pos h2]
    · simp only [if_neg h2]
      by_cases h3 : d.buffer_.length < d.pos_ + padding 4 d.pos_ + 4
          + wireValue d.swap_bytes_ (window d.buffer_ (d.pos_ + padding 4 d.pos_) 4)
      · have h4 : d.pos_ + padding 4 d.pos_ + 4
            + wireValue d.swap_bytes_ (window d.buffer_ (d.pos_ + padding 4 d.pos_) 4)
            > d.buffer_.length := by omega
        simp only [if_pos h3, if_pos h4]
      · have h4 : ¬ (d.pos_ + padding 4 d.pos_ + 4
            + wireValue d.swap_bytes_ (window d.buffer_ (d.pos_ + padding 4 d.pos_) 4)
            > d.buffer_.length) := by omega
        simp only [if_neg h3, if_neg h4]
        have h5 : d.pos_ + padding 4 d.pos_ + 4 < d.buffer_.length := by omega
        rw [List.getElem?_eq_getElem h5]
        simp only
        rw [derefAll_of_lt, List.map_map]
        · have := map_getD_eq_window d.buffer_ (d.pos_ + padding 4 d.pos_ + 4)
            (wireValue d.swap_bytes_ (window d.buffer_ (d.pos_ + padding 4 d.pos_) 4) - 1) (by omega)
          simp only [Function.comp_def, this]
        · intro i hi
          simp at hi
          obtain ⟨a, ha, rfl⟩ := hi
          omega

end CdrDeserializer

/-! ## Failed reads and the cursor -/

theorem padding_one (pos : Nat) : padding 1 pos = 0 := by
  simp [padding, Nat.mod_one]

/-- A failed read leaves the buffer and the byte order alone and moves the
cursor over the alignment padding, and for a string possibly over the length
field as well. -/
theorem read_false_cursor (d d1 : CdrDeserializer) (op : ReadOp) (h : d.read op = some (none, d1)) :
    d1.buffer_ = d.buffer_ ∧ d1.swap_bytes_ = d.swap_bytes_ ∧
      d.buffer_.length < d1.pos_ + op.size + (if op = .string then
          wireValue d.swap_bytes_ (window d.buffer_ (d.pos_ + padding 4 d.pos_) 4) else 0) ∧
      (d1.pos_ = d.pos_ + padding op.size d.pos_ ∨
        (op = .string ∧ d1.pos_ = d.pos_ + padding 4 d.pos_ + 4 ∧
          d1.pos_ ≤ d.buffer_.length)) := by
  cases op <;>
    simp only [CdrDeserializer.read, CdrDeserializer.deserialize_uint16,
      CdrDeserializer.deserialize_int16, CdrDeserializer.deserialize_uint32,
      CdrDeserializer.deserialize_int32, CdrDeserializer.deserialize_uint64,
      CdrDeserializer.deserialize_int64, CdrDeserializer.aligned_read_eq,
      CdrDeserializer.deserialize_byte_eq, CdrDeserializer.deserilalizer_bool_eq,
      CdrDeserializer.deserialize_string_eq] at h <;>
    split_ifs at h <;>
    simp only [CdrDeserializer.tagged, CdrDeserializer.asSigned, Option.some.injEq, Prod.mk.injEq,
      true_and, false_and, reduceCtorEq] at h <;>
    subst h <;>
    simp [padding_one, ReadOp.size] <;>
    omega

/-- Every read returns, and says how the cursor moved. -/
theorem read_cursor (d : CdrDeserializer) (op : ReadOp) :
    ∃ r d1, d.read op = some (r, d1) ∧ d1.buffer_ = d.buffer_ ∧ d1.swap_bytes_ = d.swap_bytes_ ∧
      d.pos_ ≤ d1.pos_ ∧ (r.isSome → d1.pos_ ≤ d.buffer_.length) := by
  cases op <;>
    simp only [CdrDeserializer.read, CdrDeserializer.deserialize_uint16,
      CdrDeserializer.deserialize_int16, CdrDeserializer.deserialize_uint32,
      CdrDeserializer.deserialize_int32, CdrDeserializer.deserialize_uint64,
      CdrDeserializer.deserialize_int64, CdrDeserializer.aligned_read_eq,
      CdrDeserializer.deserialize_byte_eq, CdrDeserializer.deserilalizer_bool_eq,
      CdrDeserializer.deserialize_string_eq] <;>
    split_ifs <;>
    simp only [CdrDeserializer.tagged, CdrDeserializer.asSigned] <;>
    refine ⟨_, _, rfl, rfl, rfl, ?_, ?_⟩ <;>
    simp <;>
    omega

/-- A sequence of reads returns an outcome for each of them. -/
theorem readAll_total (d : CdrDeserializer) (ops : List ReadOp) :
    ∃ rs d1, d.readAll ops = some (rs, d1) ∧ rs.length = ops.length ∧ d1.buffer_ = d.buffer_ := by
  induction ops generalizing d with
  | nil => exact ⟨[], d, rfl, rfl, rfl⟩
  | cons op ops ih =>
    obtain ⟨r, d1, h1, hb1, -⟩ := read_cursor d op
    obtain ⟨rs, d2, h2, hl, hb2⟩ := ih d1
    refine ⟨r :: rs, d2, ?_, by simp [hl], by rw [hb2, hb1]⟩
    simp only [CdrDeserializer.readAll, h1, h2]

theorem serialize_uint32_buffer (s : CdrSerializer) (v : Nat) :
    (s.serialize_uint32 v).buffer_ = s.buffer_ ++ List.replicate (padding 4 s.buffer_.length) 0
      ++ wireBytes s.swap_bytes_ 4 v := by
  simp only [CdrSerializer.serialize_uint32, CdrSerializer.align_write_value]

theorem alignedWrite_intro (n u : Nat) (hn : 0 < n) (s : CdrSerializer) :
    AlignedWrite n u s ((s.align n).write_value n u) := by
  have hpad : (s.buffer_.length + padding n s.buffer_.length) % n = 0 := by
    unfold padding
    have h1 : s.buffer_.length % n < n := Nat.mod_lt _ hn
    by_cases h0 : s.buffer_.length % n = 0
    · simp [h0]
    · rw [Nat.mod_eq_of_lt (by omega : n - s.buffer_.length % n < n)]
      have h2 := Nat.div_add_mod s.buffer_.length n
      have h3 : s.buffer_.length + (n - s.buffer_.length % n)
          = n * (s.buffer_.length / n + 1) := by
        rw [Nat.mul_add, Nat.mul_one]
        omega
      rw [h3, Nat.mul_mod_right]
  refine ⟨?_, wireBytes_length _ _ _, wireValue_wireBytes _ _ _, hpad, ?_⟩
  · rw [CdrSerializer.align_write_value]
    rfl
  · rw [CdrSerializer.align_write_value]
    simp only [List.length_append, List.length_replicate, wireBytes_length]
    rw [Nat.add_mod, hpad]
    simp

/-! ## Round trips -/

/-- C1: every finite list of fields (bool, byte, u16, i16, u32, i32, u64, i64,
string of fewer than `2 ^ 32 - 1` bytes) written in order into a fresh
`CdrSerializer` and read in the same order by a fresh `CdrDeserializer` over
`buffer()` makes every read return `true`, yields exactly the original values
and leaves the read cursor at the end of the buffer. -/
theorem C1_sequence_round_trip (fs : List Field) (hfs : ∀ f ∈ fs, f.InRange) (capacity : Nat) :
    (CdrDeserializer.init ((CdrSerializer.init capacity).writeAll fs).buffer).readAll
        (fs.map Field.op)
      = some (fs.map some,
          { buffer_ := ((CdrSerializer.init capacity).writeAll fs).buffer,
            pos_ := ((CdrSerializer.init capacity).writeAll fs).buffer.length,
            swap_bytes_ := false }) := by
  have h := readAll_writeAll fs hfs (CdrSerializer.init capacity) []
  simpa [CdrSerializer.init, CdrDeserializer.init, CdrSerializer.buffer] using h

/-- C1 on the fields of the test: byte `0xAB`, u16 `0x1234`, u32 `0xAABBCCDD`
and the string `"Hello DDS!"`, which occupy 23 bytes. -/
theorem C1_sequence_round_trip_witness :
    (∀ f ∈ testFields, f.InRange) ∧
    (CdrDeserializer.init ((CdrSerializer.init 1024).writeAll testFields).buffer).readAll
        (testFields.map Field.op)
      = some (testFields.map some,
          { buffer_ := ((CdrSerializer.init 1024).writeAll testFields).buffer,
            pos_ := ((CdrSerializer.init 1024).writeAll testFields).buffer.length,
            swap_bytes_ := false }) ∧
    ((CdrSerializer.init 1024).writeAll testFields).buffer.length = 23 :=
  ⟨by decide, C1_sequence_round_trip testFields (by decide) 1024, by decide⟩

/-- C2: for every byte string `s` of fewer than `2 ^ 32 - 1` bytes, zero bytes
allowed at any position, `serialize_string` on a fresh serializer followed by
`deserialize_string` on a fresh deserializer over the produced buffer returns
`true` and yields `s` byte for byte. -/
theorem C2_string_round_trip (s : List Byte) (hs : s.length < 2 ^ 32 - 1) (capacity : Nat) :
    (CdrDeserializer.init
        ((CdrSerializer.init capacity).serialize_string s).buffer).deserialize_string
      = some (some s,
          { buffer_ := ((CdrSerializer.init capacity).serialize_string s).buffer,
            pos_ := ((CdrSerializer.init capacity).serialize_string s).buffer.length,
            swap_bytes_ := false }) := by
  have h := string_read_write (CdrSerializer.init capacity) s [] hs
  simpa [CdrSerializer.init, CdrDeserializer.init, CdrSerializer.buffer] using h

/-- C2 on a string with zero bytes at the start, in the middle and at the end. -/
theorem C2_string_round_trip_witness :
    ([0, 72, 0, 0, 105, 0] : List Byte).length < 2 ^ 32 - 1 ∧
    (CdrDeserializer.init
        ((CdrSerializer.init 1024).serialize_string [0, 72, 0, 0, 105, 0]).buffer).deserialize_string
      = some (some [0, 72, 0, 0, 105, 0],
          { buffer_ := ((CdrSerializer.init 1024).serialize_string [0, 72, 0, 0, 105, 0]).buffer,
            pos_ := ((CdrSerializer.init 1024).serialize_string [0, 72, 0, 0, 105, 0]).buffer.length,
            swap_bytes_ := false }) :=
  ⟨by decide, C2_string_round_trip [0, 72, 0, 0, 105, 0] (by decide) 1024⟩

/-! ## Truncated input -/

/-- C3, as stated, fails: on the one-byte buffer `AB`, after `deserialize_byte`
has moved the cursor to 1, `deserialize_uint16` returns `false` and leaves the
cursor at 2. -/
theorem C3_counterexample :
    (CdrDeserializer.init [0xAB]).deserialize_byte
        = some (some 0xAB, { buffer_ := [0xAB], pos_ := 1, swap_bytes_ := false }) ∧
    (CdrDeserializer.mk [0xAB] 1 false).deserialize_uint16
        = some (none, { buffer_ := [0xAB], pos_ := 2, swap_bytes_ := false }) ∧
    (CdrDeserializer.mk [0xAB] 2 false).pos_ ≠ (CdrDeserializer.mk [0xAB] 1 false).pos_ := by
  decide

/-- C3, amended: when a fixed-size read of natural size `n` (1 for bool and
byte) returns `false` from cursor `p`, the buffer is unchanged and the cursor
is `p + (n - p mod n) mod n`, that is `p` moved over the alignment padding; it
equals `p` for the 1-byte reads and whenever `p` is a multiple of `n`. -/
theorem C3_failed_fixed_read (d d1 : CdrDeserializer) (op : ReadOp) (hop : op ≠ ReadOp.string)
    (h : d.read op = some (none, d1)) :
    d1.buffer_ = d.buffer_ ∧
    d1.pos_ = d.pos_ + (op.size - d.pos_ % op.size) % op.size ∧
    (d.pos_ % op.size = 0 → d1.pos_ = d.pos_) ∧
    (op.size = 1 → d1.pos_ = d.pos_) := by
  obtain ⟨hb, -, -, hp⟩ := read_false_cursor d d1 op h
  have hp1 : d1.pos_ = d.pos_ + padding op.size d.pos_ := by
    rcases hp with hp | ⟨hs, -⟩
    · exact hp
    · exact absurd hs hop
  refine ⟨hb, hp1, ?_, ?_⟩
  · intro h0
    rw [hp1, padding, h0]
    simp
  · intro h1
    rw [hp1, h1, padding_one]
    rfl

/-- C3, amended, on the one-byte buffer `AB` with the cursor at 1: the failed
`deserialize_uint16` leaves the cursor at `1 + (2 - 1 mod 2) mod 2 = 2`. -/
theorem C3_failed_fixed_read_witness :
    ReadOp.uint16 ≠ ReadOp.string ∧
    (CdrDeserializer.mk [0xAB] 1 false).read ReadOp.uint16
      = some (none, CdrDeserializer.mk [0xAB] 2 false) ∧
    (CdrDeserializer.mk [0xAB] 2 false).pos_ = 1 + (2 - 1 % 2) % 2 :=
  ⟨by decide, by decide,
    (C3_failed_fixed_read (CdrDeserializer.mk [0xAB] 1 false) (CdrDeserializer.mk [0xAB] 2 false)
      ReadOp.uint16 (by decide) (by decide)).2.1⟩

/-- C4, as stated, fails: on the four bytes `05 00 00 00` a fresh reader reads
the length 5, finds no five bytes behind it, returns `false` and leaves the
cursor at 4. -/
theorem C4_counterexample :
    (CdrDeserializer.init [5, 0, 0, 0]).deserialize_string
        = some (none, { buffer_ := [5, 0, 0, 0], pos_ := 4, swap_bytes_ := false }) ∧
    (CdrDeserializer.mk [5, 0, 0, 0] 4 false).pos_ ≠ (CdrDeserializer.init [5, 0, 0, 0]).pos_ := by
  decide

/-- C4, amended: when `deserialize_string` returns `false` from cursor `p`, with
`a = p + (4 - p mod 4) mod 4`, the buffer is unchanged and either the length
field does not fit (`a + 4` exceeds the buffer length) and the cursor is `a`, or
`deserialize_uint32` has read a nonzero length of which fewer bytes remain and
the cursor is `a + 4`, behind the length field. -/
theorem C4_failed_string_read (d d1 : CdrDeserializer)
    (h : d.deserialize_string = some (none, d1)) :
    d1.buffer_ = d.buffer_ ∧
    ((d.buffer_.length < d.pos_ + (4 - d.pos_ % 4) % 4 + 4 ∧
        d1.pos_ = d.pos_ + (4 - d.pos_ % 4) % 4) ∨
     (d.pos_ + (4 - d.pos_ % 4) % 4 + 4 ≤ d.buffer_.length ∧
        d1.pos_ = d.pos_ + (4 - d.pos_ % 4) % 4 + 4 ∧
        ∃ length, d.deserialize_uint32 = some (some length, d1) ∧ length ≠ 0 ∧
          d.buffer_.length < d1.pos_ + length)) := by
  rw [CdrDeserializer.deserialize_string_eq] at h
  unfold CdrDeserializer.deserialize_uint32
  rw [CdrDeserializer.aligned_read_eq]
  simp only [padding] at h ⊢
  split_ifs at h with h1 h2 h3 <;>
    simp only [Option.some.injEq, Prod.mk.injEq, true_and, false_and, reduceCtorEq] at h
  · subst h
    exact ⟨rfl, Or.inl ⟨h1, rfl⟩⟩
  · subst h
    refine ⟨rfl, Or.inr ⟨by omega, rfl, _, ?_, h2, h3⟩⟩
    rw [if_neg h1]

/-- C4, amended, on the four bytes `05 00 00 00`: the failed read leaves the
cursor at 4. -/
theorem C4_failed_string_read_witness :
    (CdrDeserializer.init [5, 0, 0, 0]).deserialize_string
        = some (none, CdrDeserializer.mk [5, 0, 0, 0] 4 false) ∧
    ((CdrDeserializer.mk [5, 0, 0, 0] 4 false).buffer_ = (CdrDeserializer.init [5, 0, 0, 0]).buffer_ ∧
      (((CdrDeserializer.init [5, 0, 0, 0]).buffer_.length
            < (CdrDeserializer.init [5, 0, 0, 0]).pos_
              + (4 - (CdrDeserializer.init [5, 0, 0, 0]).pos_ % 4) % 4 + 4 ∧
          (CdrDeserializer.mk [5, 0, 0, 0] 4 false).pos_
            = (CdrDeserializer.init [5, 0, 0, 0]).pos_
              + (4 - (CdrDeserializer.init [5, 0, 0, 0]).pos_ % 4) % 4) ∨
       ((CdrDeserializer.init [5, 0, 0, 0]).pos_
            + (4 - (CdrDeserializer.init [5, 0, 0, 0]).pos_ % 4) % 4 + 4
            ≤ (CdrDeserializer.init [5, 0, 0, 0]).buffer_.length ∧
          (CdrDeserializer.mk [5, 0, 0, 0] 4 false).pos_
            = (CdrDeserializer.init [5, 0, 0, 0]).pos_
              + (4 - (CdrDeserializer.init [5, 0, 0, 0]).pos_ % 4) % 4 + 4 ∧
          ∃ length, (CdrDeserializer.init [5, 0, 0, 0]).deserialize_uint32
              = some (some length, CdrDeserializer.mk [5, 0, 0, 0] 4 false) ∧ length ≠ 0 ∧
            (CdrDeserializer.init [5, 0, 0, 0]).buffer_.length
              < (CdrDeserializer.mk [5, 0, 0, 0] 4 false).pos_ + length))) :=
  ⟨by decide,
    C4_failed_string_read (CdrDeserializer.init [5, 0, 0, 0])
      (CdrDeserializer.mk [5, 0, 0, 0] 4 false) (by decide)⟩

/-! ## Memory safety and the cursor bound -/

/-- C5: on every byte buffer, well-formed or not, every finite sequence of read
operations applied to one `CdrDeserializer` over it runs without ever
dereferencing an index outside the buffer (the evaluation with checked indexing
is never `none`), and each operation ends by returning `true` or `false`: there
is one outcome for each operation. -/
theorem C5_reader_memory_safe (buffer : List Byte) (ops : List ReadOp) :
    ∃ (rs : List (Option Field)) (d : CdrDeserializer),
      (CdrDeserializer.init buffer).readAll ops = some (rs, d) ∧ rs.length = ops.length := by
  obtain ⟨rs, d, h, hl, -⟩ := readAll_total (CdrDeserializer.init buffer) ops
  exact ⟨rs, d, h, hl⟩

/-- C6, as stated, fails: on the one-byte buffer `AB` the reads
`deserialize_byte`, `deserialize_uint16` leave the cursor at 2, past the buffer
length 1. -/
theorem C6_counterexample :
    (CdrDeserializer.init [0xAB]).readAll [ReadOp.byte, ReadOp.uint16]
        = some ([some (Field.byte 0xAB), none],
            { buffer_ := [0xAB], pos_ := 2, swap_bytes_ := false }) ∧
    ¬ ((CdrDeserializer.mk [0xAB] 2 false).pos_ ≤ (CdrDeserializer.mk [0xAB] 2 false).buffer_.length) := by
  decide

/-- C6, amended: a fresh reader has cursor 0; every read operation, successful
or failed, keeps the buffer, never moves the cursor backwards, leaves
`cursor ≤ length` whenever it returns `true`, and preserves the weaker bound
`cursor ≤ length + (8 - length mod 8) mod 8` (the length rounded up to a
multiple of 8, at most `length + 7`). -/
theorem C6_cursor_bound (d d1 : CdrDeserializer) (op : ReadOp) (r : Option Field)
    (hb : d.pos_ ≤ d.buffer_.length + (8 - d.buffer_.length % 8) % 8)
    (h : d.read op = some (r, d1)) :
    (CdrDeserializer.init d.buffer_).pos_ = 0 ∧
    d1.buffer_ = d.buffer_ ∧
    d.pos_ ≤ d1.pos_ ∧
    (r.isSome → d1.pos_ ≤ d1.buffer_.length) ∧
    d1.pos_ ≤ d1.buffer_.length + (8 - d1.buffer_.length % 8) % 8 := by
  obtain ⟨r2, d2, h2, hbuf, -, hmono, hok⟩ := read_cursor d op
  rw [h] at h2
  simp only [Option.some.injEq, Prod.mk.injEq] at h2
  obtain ⟨hr, hd⟩ := h2
  subst hr hd
  refine ⟨rfl, hbuf, hmono, ?_, ?_⟩
  · rw [hbuf]
    exact hok
  · rw [hbuf]
    cases r with
    | some v =>
      have := hok rfl
      omega
    | none =>
      obtain ⟨-, -, -, hp⟩ := read_false_cursor d d1 op h
      rcases hp with hp | ⟨-, -, hp⟩
      · rw [hp]
        cases op <;> simp only [ReadOp.size, padding] <;> omega
      · omega

/-- C6, amended, on the one-byte buffer `AB` with the cursor at 1: the failed
`deserialize_uint16` leaves the cursor at 2, within `1 + (8 - 1 mod 8) mod 8 = 8`. -/
theorem C6_cursor_bound_witness :
    (CdrDeserializer.mk [0xAB] 1 false).pos_
        ≤ (CdrDeserializer.mk [0xAB] 1 false).buffer_.length
          + (8 - (CdrDeserializer.mk [0xAB] 1 false).buffer_.length % 8) % 8 ∧
    (CdrDeserializer.mk [0xAB] 1 false).read ReadOp.uint16
        = some (none, CdrDeserializer.mk [0xAB] 2 false) ∧
    (CdrDeserializer.mk [0xAB] 2 false).pos_
        ≤ (CdrDeserializer.mk [0xAB] 2 false).buffer_.length
          + (8 - (CdrDeserializer.mk [0xAB] 2 false).buffer_.length % 8) % 8 :=
  ⟨by decide, by decide,
    (C6_cursor_bound (CdrDeserializer.mk [0xAB] 1 false) (CdrDeserializer.mk [0xAB] 2 false)
      ReadOp.uint16 none (by decide) (by decide)).2.2.2.2⟩

/-! ## Wire format of the writer -/

/-- C7: for every writer state with buffer length `L`, each aligned write
(`serialize_uint16/int16` with `n = 2`, `uint32/int32` with `n = 4`,
`uint64/int64` with `n = 8`) yields the old buffer, followed by exactly
`(n - L mod n) mod n` zero bytes, followed by the `n` value bytes; the value
starts at a multiple of `n` and the new length is a multiple of `n`.  A u16
written to a buffer of exactly one byte is preceded by exactly one padding
byte. -/
theorem C7_writer_alignment (s : CdrSerializer) :
    (∀ v : Nat, AlignedWrite 2 v s (s.serialize_uint16 v)) ∧
    (∀ v : Int, AlignedWrite 2 (unsignedRepr 2 v) s (s.serialize_int16 v)) ∧
    (∀ v : Nat, AlignedWrite 4 v s (s.serialize_uint32 v)) ∧
    (∀ v : Int, AlignedWrite 4 (unsignedRepr 4 v) s (s.serialize_int32 v)) ∧
    (∀ v : Nat, AlignedWrite 8 v s (s.serialize_uint64 v)) ∧
    (∀ v : Int, AlignedWrite 8 (unsignedRepr 8 v) s (s.serialize_int64 v)) ∧
    (∀ v : Nat, s.buffer_.length = 1 →
      (s.serialize_uint16 v).buffer_ = s.buffer_ ++ [0] ++ wireBytes s.swap_bytes_ 2 v) := by
  refine ⟨fun v => alignedWrite_intro 2 v (by decide) s,
    fun v => alignedWrite_intro 2 _ (by decide) s,
    fun v => alignedWrite_intro 4 v (by decide) s,
    fun v => alignedWrite_intro 4 _ (by decide) s,
    fun v => alignedWrite_intro 8 v (by decide) s,
    fun v => alignedWrite_intro 8 _ (by decide) s, ?_⟩
  intro v hs
  simp [CdrSerializer.serialize_uint16, CdrSerializer.align_write_value, hs, padding]

/-- C7 on the test: the byte `AB` followed by the u16 `0x1234` in a fresh
serializer gives `AB 00 34 12`, one padding byte. -/
theorem C7_writer_alignment_witness :
    ((CdrSerializer.init 1024).serialize_byte 0xAB).buffer_.length = 1 ∧
    (((CdrSerializer.init 1024).serialize_byte 0xAB).serialize_uint16 0x1234).buffer_
      = ((CdrSerializer.init 1024).serialize_byte 0xAB).buffer_ ++ [0]
          ++ wireBytes ((CdrSerializer.init 1024).serialize_byte 0xAB).swap_bytes_ 2 0x1234 ∧
    (((CdrSerializer.init 1024).serialize_byte 0xAB).serialize_uint16 0x1234).buffer_
      = [0xAB, 0x00, 0x34, 0x12] :=
  ⟨by decide,
    (C7_writer_alignment ((CdrSerializer.init 1024).serialize_byte 0xAB)).2.2.2.2.2.2 0x1234
      (by decide),
    by decide⟩

/-- C8: for every string `v` of fewer than `2 ^ 32 - 1` bytes and every writer
state, `serialize_string` appends the zero padding to a multiple of 4, a 4-byte
length field of value `|v| + 1`, the bytes of `v` unchanged and one zero byte,
nothing else; on a 4-aligned buffer that is exactly `|v| + 5` bytes, and
`"Hello DDS!"` in a fresh serializer yields the length field 11, the 10 ASCII
bytes and one zero byte, 15 bytes in total. -/
theorem C8_string_wire_format (s : CdrSerializer) (v : List Byte) (hv : v.length < 2 ^ 32 - 1) :
    (s.serialize_string v).buffer_
      = s.buffer_ ++ List.replicate ((4 - s.buffer_.length % 4) % 4) (0 : Byte)
          ++ wireBytes s.swap_bytes_ 4 (v.length + 1) ++ v ++ [0] ∧
    (wireBytes s.swap_bytes_ 4 (v.length + 1)).length = 4 ∧
    wireValue s.swap_bytes_ (wireBytes s.swap_bytes_ 4 (v.length + 1)) = v.length + 1 ∧
    (s.buffer_.length % 4 = 0 →
      (s.serialize_string v).buffer_.length = s.buffer_.length + (v.length + 5)) ∧
    ((CdrSerializer.init 1024).serialize_string helloDDS).buffer_
      = [11, 0, 0, 0] ++ helloDDS ++ [0] ∧
    ((CdrSerializer.init 1024).serialize_string helloDDS).buffer_.length = 15 := by
  have hlen : (v.length + 1) % 2 ^ 32 = v.length + 1 := Nat.mod_eq_of_lt (by omega)
  have hbuf : (s.serialize_string v).buffer_
      = s.buffer_ ++ List.replicate ((4 - s.buffer_.length % 4) % 4) (0 : Byte)
          ++ wireBytes s.swap_bytes_ 4 (v.length + 1) ++ v ++ [0] := by
    simp only [CdrSerializer.serialize_string, serialize_uint32_buffer, hlen, padding]
  refine ⟨hbuf, wireBytes_length _ _ _, ?_, ?_, by decide, by decide⟩
  · rw [wireValue_wireBytes]
    exact Nat.mod_eq_of_lt (by norm_num; omega)
  · intro h4
    rw [hbuf]
    simp only [List.length_append, List.length_replicate, wireBytes_length, List.length_singleton, h4]
    omega

/-- C8 on `"Hello DDS!"` in a fresh serializer: the length field `0B 00 00 00`
(value 11), the 10 ASCII bytes and one zero byte, 15 bytes in total. -/
theorem C8_string_wire_format_witness :
    helloDDS.length < 2 ^ 32 - 1 ∧
    ((CdrSerializer.init 1024).serialize_string helloDDS).buffer_
      = (CdrSerializer.init 1024).buffer_
          ++ List.replicate ((4 - (CdrSerializer.init 1024).buffer_.length % 4) % 4) (0 : Byte)
          ++ wireBytes (CdrSerializer.init 1024).swap_bytes_ 4 (helloDDS.length + 1)
          ++ helloDDS ++ [0] ∧
    ((CdrSerializer.init 1024).serialize_string helloDDS).buffer_
      = [11, 0, 0, 0, 72, 101, 108, 108, 111, 32, 68, 68, 83, 33, 0] ∧
    ((CdrSerializer.init 1024).serialize_string helloDDS).buffer_.length = 15 :=
  ⟨by decide, (C8_string_wire_format (CdrSerializer.init 1024) helloDDS (by decide)).1,
    by decide, by decide⟩

/-- C9: wherever the aligned 4-byte length field decodes to 0 (that is,
`deserialize_uint32` returns `true` with the value 0), `deserialize_string`
returns `true`, yields the empty string and leaves the cursor at the end of the
length field, the aligned position plus 4; no terminator byte is consumed and
none needs to follow. -/
theorem C9_zero_length_string (d d1 : CdrDeserializer)
    (h : d.deserialize_uint32 = some (some 0, d1)) :
    d.deserialize_string = some (some [], d1) ∧
    d1.pos_ = d.pos_ + (4 - d.pos_ % 4) % 4 + 4 ∧
    d1.buffer_ = d.buffer_ := by
  have hs : d.deserialize_string = some (some [], d1) := by
    unfold CdrDeserializer.deserialize_string
    rw [h]
    simp
  have hd : d1 = { d with pos_ := d.pos_ + padding 4 d.pos_ + 4 } := by
    unfold CdrDeserializer.deserialize_uint32 at h
    rw [CdrDeserializer.aligned_read_eq] at h
    split_ifs at h
    · simp at h
    · simp only [Option.some.injEq, Prod.mk.injEq] at h
      exact h.2.symm
  rw [hd] at hs ⊢
  exact ⟨hs, rfl, rfl⟩

/-- C9 on the buffer `07 00 00 00 00 00 00 00` with the cursor at 1: the length
field occupies the last four bytes, the read succeeds with the empty string and
the cursor ends at 8, the end of the buffer. -/
theorem C9_zero_length_string_witness :
    (CdrDeserializer.mk [7, 0, 0, 0, 0, 0, 0, 0] 1 false).deserialize_uint32
      = some (some 0, CdrDeserializer.mk [7, 0, 0, 0, 0, 0, 0, 0] 8 false) ∧
    (CdrDeserializer.mk [7, 0, 0, 0, 0, 0, 0, 0] 1 false).deserialize_string
      = some (some [], CdrDeserializer.mk [7, 0, 0, 0, 0, 0, 0, 0] 8 false) :=
  ⟨by decide,
    (C9_zero_length_string (CdrDeserializer.mk [7, 0, 0, 0, 0, 0, 0, 0] 1 false)
      (CdrDeserializer.mk [7, 0, 0, 0, 0, 0, 0, 0] 8 false) (by decide)).1⟩

/-- C10: for every byte vector `v` of fewer than `2 ^ 32` elements and every
writer state, `serialize_array` appends the zero padding to a multiple of 4, a
4-byte length field whose value is the element count, and the bytes of `v`
verbatim, with no terminator and no trailing padding; the new length is the
aligned old length plus `4 + |v|`. -/
theorem C10_array_wire_format (s : CdrSerializer) (v : List Byte) (hv : v.length < 2 ^ 32) :
    (s.serialize_array v).buffer_
      = s.buffer_ ++ List.replicate ((4 - s.buffer_.length % 4) % 4) (0 : Byte)
          ++ wireBytes s.swap_bytes_ 4 v.length ++ v ∧
    (wireBytes s.swap_bytes_ 4 v.length).length = 4 ∧
    wireValue s.swap_bytes_ (wireBytes s.swap_bytes_ 4 v.length) = v.length ∧
    (s.serialize_array v).buffer_.length
      = s.buffer_.length + (4 - s.buffer_.length % 4) % 4 + 4 + v.length := by
  have hlen : v.length % 2 ^ 32 = v.length := Nat.mod_eq_of_lt hv
  have hbuf : (s.serialize_array v).buffer_
      = s.buffer_ ++ List.replicate ((4 - s.buffer_.length % 4) % 4) (0 : Byte)
          ++ wireBytes s.swap_bytes_ 4 v.length ++ v := by
    simp only [CdrSerializer.serialize_array, serialize_uint32_buffer, hlen, padding]
  refine ⟨hbuf, wireBytes_length _ _ _, ?_, ?_⟩
  · rw [wireValue_wireBytes]
    exact Nat.mod_eq_of_lt (by norm_num; omega)
  · rw [hbuf]
    simp only [List.length_append, List.length_replicate, wireBytes_length]

/-- C10 on the three bytes `01 02 03` written after one byte: three padding
bytes, the count `03 00 00 00` and the three bytes, 11 bytes in total. -/
theorem C10_array_wire_format_witness :
    ([1, 2, 3] : List Byte).length < 2 ^ 32 ∧
    (((CdrSerializer.init 1024).serialize_byte 0xAB).serialize_array [1, 2, 3]).buffer_.length
      = ((CdrSerializer.init 1024).serialize_byte 0xAB).buffer_.length
        + (4 - ((CdrSerializer.init 1024).serialize_byte 0xAB).buffer_.length % 4) % 4 + 4
        + ([1, 2, 3] : List Byte).length ∧
    (((CdrSerializer.init 1024).serialize_byte 0xAB).serialize_array [1, 2, 3]).buffer_
      = [0xAB, 0, 0, 0, 3, 0, 0, 0, 1, 2, 3] :=
  ⟨by decide,
    (C10_array_wire_format ((CdrSerializer.init 1024).serialize_byte 0xAB) [1, 2, 3]
      (by decide)).2.2.2,
    by decide⟩

/-! ## SequenceNumber: the split representation -/

theorem SequenceNumber.to_int64_eq (s : SequenceNumber) (hs : s.InRange) :
    s.to_int64 = s.high * 2 ^ 32 + (s.low : Int) := by
  obtain ⟨h1, h2, h3⟩ := hs
  unfold SequenceNumber.to_int64
  have hlow : unsignedRepr 8 (s.low : Int) = s.low := by
    unfold unsignedRepr
    norm_num at *
    omega
  have hX : (unsignedRepr 8 s.high <<< 32) % 2 ^ 64 = 2 ^ 32 * (unsignedRepr 8 s.high % 2 ^ 32) := by
    rw [Nat.shiftLeft_eq]
    norm_num
    omega
  rw [hlow, hX, ← Nat.mul_add_lt_is_or h3]
  unfold signedValue unsignedRepr
  norm_num at *
  split <;> omega

theorem SequenceNumber.ofInt64_eq (v : Int) (h1 : -(2 : Int) ^ 63 ≤ v) (h2 : v < (2 : Int) ^ 63) :
    SequenceNumber.ofInt64 v = ⟨v / 2 ^ 32, (v % 2 ^ 32).toNat⟩ := by
  unfold SequenceNumber.ofInt64
  have hmask : (0xFFFFFFFF : Nat) = 2 ^ 32 - 1 := by norm_num
  rw [hmask, Nat.and_pow_two_sub_one_eq_mod, Int.shiftRight_eq_div_pow]
  unfold signedValue unsignedRepr
  norm_num at *
  constructor
  · split <;> omega
  · omega

theorem SequenceNumber.ofInt64_inRange (v : Int) (h1 : -(2 : Int) ^ 63 ≤ v) (h2 : v < (2 : Int) ^ 63) :
    (SequenceNumber.ofInt64 v).InRange := by
  rw [SequenceNumber.ofInt64_eq v h1 h2]
  unfold SequenceNumber.InRange
  norm_num at *
  omega

/-- The integer constructor followed by `to_int64` is the identity on the
64-bit range. -/
theorem SequenceNumber.to_int64_ofInt64 (v : Int) (h1 : -(2 : Int) ^ 63 ≤ v)
    (h2 : v < (2 : Int) ^ 63) : (SequenceNumber.ofInt64 v).to_int64 = v := by
  rw [SequenceNumber.to_int64_eq _ (SequenceNumber.ofInt64_inRange v h1 h2),
    SequenceNumber.ofInt64_eq v h1 h2]
  simp only
  omega

/-- C11: for every 64-bit signed integer `v`, negative values included,
`SequenceNumber(v).to_int64() == v`. -/
theorem C11_int64_round_trip (v : Int) (h1 : -(2 : Int) ^ 63 ≤ v) (h2 : v < (2 : Int) ^ 63) :
    (SequenceNumber.ofInt64 v).to_int64 = v :=
  SequenceNumber.to_int64_ofInt64 v h1 h2

/-- C11 on the most negative 64-bit integer. -/
theorem C11_int64_round_trip_witness :
    -(2 : Int) ^ 63 ≤ -9223372036854775808 ∧ (-9223372036854775808 : Int) < (2 : Int) ^ 63 ∧
    (SequenceNumber.ofInt64 (-9223372036854775808)).to_int64 = -9223372036854775808 :=
  ⟨by decide, by decide, C11_int64_round_trip (-9223372036854775808) (by decide) (by decide)⟩

/-- C12: for every 64-bit signed integer `v`, `SequenceNumber(v)` has `high`
equal to the floor of `v / 2 ^ 32` (the arithmetic right shift by 32, a signed
32-bit value) and `low` equal to `v mod 2 ^ 32` (an unsigned 32-bit value);
constructing from `1 << 33` yields `high = 2` and `low = 0`. -/
theorem C12_int64_split (v : Int) (h1 : -(2 : Int) ^ 63 ≤ v) (h2 : v < (2 : Int) ^ 63) :
    (SequenceNumber.ofInt64 v).high = v / 2 ^ 32 ∧
    (SequenceNumber.ofInt64 v).high * 2 ^ 32 ≤ v ∧
    v < ((SequenceNumber.ofInt64 v).high + 1) * 2 ^ 32 ∧
    ((SequenceNumber.ofInt64 v).low : Int) = v % 2 ^ 32 ∧
    (SequenceNumber.ofInt64 v).InRange ∧
    SequenceNumber.ofInt64 ((2 : Int) ^ 33) = ⟨2, 0⟩ := by
  refine ⟨?_, ?_, ?_, ?_, SequenceNumber.ofInt64_inRange v h1 h2, by decide⟩ <;>
    rw [SequenceNumber.ofInt64_eq v h1 h2] <;>
    simp only <;>
    omega

/-- C12 on `1 << 33` and on `-1`, which splits into `high = -1` and
`low = 0xFFFFFFFF`. -/
theorem C12_int64_split_witness :
    -(2 : Int) ^ 63 ≤ -1 ∧ (-1 : Int) < (2 : Int) ^ 63 ∧
    (SequenceNumber.ofInt64 (-1)).high = -1 / 2 ^ 32 ∧
    SequenceNumber.ofInt64 (-1) = ⟨-1, 0xFFFFFFFF⟩ ∧
    SequenceNumber.ofInt64 8589934592 = ⟨2, 0⟩ :=
  ⟨by decide, by decide, (C12_int64_split (-1) (by decide) (by decide)).1, by decide, by decide⟩

/-- C13: for every counter `(high, low)` with `high < 2 ^ 31 - 1`, the prefix
increment yields `(high, low + 1)` when `low != 0xFFFFFFFF` and `(high + 1, 0)`
when `low == 0xFFFFFFFF`; the postfix increment leaves the counter in that same
state and returns the value `(high, low)` it had before. -/
theorem C13_increment_carry (s : SequenceNumber) (hs : s.InRange) (hh : s.high < 2 ^ 31 - 1) :
    (s.low ≠ 0xFFFFFFFF → s.preIncrement = ⟨s.high, s.low + 1⟩) ∧
    (s.low = 0xFFFFFFFF → s.preIncrement = ⟨s.high + 1, 0⟩) ∧
    s.preIncrement.InRange ∧
    s.postIncrement.2 = s.preIncrement ∧
    s.postIncrement.1 = s := by
  obtain ⟨h1, h2, h3⟩ := hs
  have hpre : s.preIncrement
      = if s.low = 0xFFFFFFFF then ⟨s.high + 1, 0⟩ else ⟨s.high, s.low + 1⟩ := by
    unfold SequenceNumber.preIncrement
    simp only
    by_cases hl : s.low = 0xFFFFFFFF
    · have h0 : (s.low + 1) % 2 ^ 32 = 0 := by rw [hl]; norm_num
      rw [if_pos h0, if_pos hl, h0]
    · have h0 : (s.low + 1) % 2 ^ 32 = s.low + 1 := Nat.mod_eq_of_lt (by omega)
      have h4 : ¬ ((s.low + 1) % 2 ^ 32 = 0) := by omega
      rw [if_neg h4, if_neg hl, h0]
  refine ⟨fun hl => by rw [hpre, if_neg hl], fun hl => by rw [hpre, if_pos hl], ?_, rfl, rfl⟩
  rw [hpre]
  unfold SequenceNumber.InRange
  split <;> simp only <;> norm_num at * <;> omega

/-- C13 on the counter `(5, 0xFFFFFFFF)`: the increment carries into `high`. -/
theorem C13_increment_carry_witness :
    (SequenceNumber.mk 5 0xFFFFFFFF).InRange ∧ (5 : Int) < 2 ^ 31 - 1 ∧
    (SequenceNumber.mk 5 0xFFFFFFFF).preIncrement = ⟨6, 0⟩ ∧
    (SequenceNumber.mk 5 0xFFFFFFFF).postIncrement = (⟨5, 0xFFFFFFFF⟩, ⟨6, 0⟩) :=
  ⟨by decide, by decide,
    (C13_increment_carry (SequenceNumber.mk 5 0xFFFFFFFF) (by decide) (by decide)).2.1 rfl,
    by decide⟩

/-- C14: for all counters `a` and `b`, `a < b` holds iff
`a.to_int64() < b.to_int64()` as signed 64-bit integers, and `<=`, `>`, `==`
agree with `<=`, `>`, `==` on `to_int64()`. -/
theorem C14_order_is_int64_order (a b : SequenceNumber) (ha : a.InRange) (hb : b.InRange) :
    (a.lt b = true ↔ a.to_int64 < b.to_int64) ∧
    (a.le b = true ↔ a.to_int64 ≤ b.to_int64) ∧
    (a.gt b = true ↔ a.to_int64 > b.to_int64) ∧
    (a.eq b = true ↔ a.to_int64 = b.to_int64) := by
  rw [SequenceNumber.to_int64_eq a ha, SequenceNumber.to_int64_eq b hb]
  obtain ⟨a1, a2, a3⟩ := ha
  obtain ⟨b1, b2, b3⟩ := hb
  have hlt : a.lt b = true ↔ a.high * 2 ^ 32 + (a.low : Int) < b.high * 2 ^ 32 + (b.low : Int) := by
    unfold SequenceNumber.lt
    split <;> simp only [decide_eq_true_eq] <;> omega
  have heq : a.eq b = true ↔ a.high * 2 ^ 32 + (a.low : Int) = b.high * 2 ^ 32 + (b.low : Int) := by
    unfold SequenceNumber.eq
    simp only [Bool.and_eq_true, decide_eq_true_eq]
    omega
  have hle : a.le b = true ↔ a.high * 2 ^ 32 + (a.low : Int) ≤ b.high * 2 ^ 32 + (b.low : Int) := by
    unfold SequenceNumber.le
    rw [Bool.or_eq_true, hlt, heq]
    omega
  refine ⟨hlt, hle, ?_, heq⟩
  unfold SequenceNumber.gt
  rw [Bool.not_eq_true', ← Bool.not_eq_true, hle]
  omega

/-- C14 on the test: `SequenceNumber(10) < SequenceNumber(20)`. -/
theorem C14_order_is_int64_order_witness :
    (SequenceNumber.ofInt64 10).InRange ∧ (SequenceNumber.ofInt64 20).InRange ∧
    (SequenceNumber.ofInt64 10).lt (SequenceNumber.ofInt64 20) = true ∧
    ((SequenceNumber.ofInt64 10).lt (SequenceNumber.ofInt64 20) = true ↔
      (SequenceNumber.ofInt64 10).to_int64 < (SequenceNumber.ofInt64 20).to_int64) :=
  ⟨by decide, by decide, by decide,
    (C14_order_is_int64_order (SequenceNumber.ofInt64 10) (SequenceNumber.ofInt64 20)
      (by decide) (by decide)).1⟩

/-- A counter in range is rebuilt by the integer constructor from its 64-bit
value. -/
theorem SequenceNumber.ofInt64_to_int64 (s : SequenceNumber) (hs : s.InRange) :
    SequenceNumber.ofInt64 s.to_int64 = s := by
  rw [SequenceNumber.to_int64_eq s hs]
  obtain ⟨h1, h2, h3⟩ := hs
  have hr1 : -(2 : Int) ^ 63 ≤ s.high * 2 ^ 32 + (s.low : Int) := by norm_num at *; omega
  have hr2 : s.high * 2 ^ 32 + (s.low : Int) < (2 : Int) ^ 63 := by norm_num at *; omega
  rw [SequenceNumber.ofInt64_eq _ hr1 hr2]
  cases s with
  | mk high low =>
    simp only [SequenceNumber.mk.injEq] at *
    norm_num at *
    omega

/-- C15: for every counter `s` and 64-bit integer `v`, if `s.to_int64() + v`
stays in the signed 64-bit range then `(s + v).to_int64() == s.to_int64() + v`,
`(s + v) - v == s` and the counter difference `(s + v) - s` is `v`; if
`s.to_int64() - v` stays in the range then
`(s - v).to_int64() == s.to_int64() - v`. -/
theorem C15_integer_arithmetic (s : SequenceNumber) (v : Int) (hs : s.InRange) :
    (-(2 : Int) ^ 63 ≤ s.to_int64 + v → s.to_int64 + v < (2 : Int) ^ 63 →
      (s.add v).to_int64 = s.to_int64 + v ∧
      ((s.add v).sub v).eq s = true ∧
      (s.add v).diff s = v) ∧
    (-(2 : Int) ^ 63 ≤ s.to_int64 - v → s.to_int64 - v < (2 : Int) ^ 63 →
      (s.sub v).to_int64 = s.to_int64 - v) := by
  constructor
  · intro h1 h2
    have hadd : (s.add v).to_int64 = s.to_int64 + v := SequenceNumber.to_int64_ofInt64 _ h1 h2
    refine ⟨hadd, ?_, ?_⟩
    · have hback : (s.add v).sub v = s := by
        unfold SequenceNumber.sub
        rw [hadd, Int.add_sub_cancel, SequenceNumber.ofInt64_to_int64 s hs]
      rw [hback]
      simp [SequenceNumber.eq]
    · unfold SequenceNumber.diff
      rw [hadd]
      omega
  · intro h1 h2
    exact SequenceNumber.to_int64_ofInt64 _ h1 h2

/-- C15 on the test: `SequenceNumber(100) + 50` has the value 150. -/
theorem C15_integer_arithmetic_witness :
    (SequenceNumber.ofInt64 100).InRange ∧
    -(2 : Int) ^ 63 ≤ (SequenceNumber.ofInt64 100).to_int64 + 50 ∧
    (SequenceNumber.ofInt64 100).to_int64 + 50 < (2 : Int) ^ 63 ∧
    ((SequenceNumber.ofInt64 100).add 50).to_int64 = (SequenceNumber.ofInt64 100).to_int64 + 50 ∧
    ((SequenceNumber.ofInt64 100).add 50).to_int64 = 150 :=
  ⟨by decide, by decide, by decide,
    ((C15_integer_arithmetic (SequenceNumber.ofInt64 100) 50 (by decide)).1
      (by decide) (by decide)).1,
    by decide⟩

/-! ## GUID: the order -/

/-- The comparison of `std::array` is the strict lexicographic order of the
element lists. -/
theorem lexicographical_compare_iff (l1 l2 : List Byte) :
    lexicographical_compare l1 l2 = true ↔ List.Lex (fun x y : Byte => x < y) l1 l2 := by
  induction l1 generalizing l2 with
  | nil =>
    cases l2 with
    | nil => simp [lexicographical_compare]
    | cons b bs => simp [lexicographical_compare, List.Lex.nil]
  | cons a as ih =>
    cases l2 with
    | nil => simp [lexicographical_compare]
    | cons b bs =>
      unfold lexicographical_compare
      by_cases h1 : a < b
      · simp only [if_pos h1, true_iff]
        exact List.Lex.rel h1
      · by_cases h2 : b < a
        · simp only [if_neg h1, if_pos h2, Bool.false_eq_true, false_iff]
          intro h
          cases h with
          | cons h3 => exact absurd h2 (lt_irrefl _)
          | rel h3 => exact h1 h3
        · have hab : a = b := le_antisymm (not_lt.mp h2) (not_lt.mp h1)
          subst hab
          simp only [if_neg h1, ih]
          constructor
          · intro h
            exact List.Lex.cons h
          · intro h
            cases h with
            | cons h3 => exact h3
            | rel h3 => exact absurd h3 h1

/-- Comparing two concatenations whose first parts have the same length: the
first parts decide unless they are equal. -/
theorem lexicographical_compare_append (p1 p2 e1 e2 : List Byte) (hlen : p1.length = p2.length) :
    lexicographical_compare (p1 ++ e1) (p2 ++ e2)
      = if p1 ≠ p2 then lexicographical_compare p1 p2 else lexicographical_compare e1 e2 := by
  induction p1 generalizing p2 with
  | nil =>
    cases p2 with
    | nil => simp
    | cons b bs => simp at hlen
  | cons a as ih =>
    cases p2 with
    | nil => simp at hlen
    | cons b bs =>
      simp only [List.length_cons, Nat.add_right_cancel_iff] at hlen
      simp only [List.cons_append, lexicographical_compare]
      by_cases h1 : a < b
      · have hne : a :: as ≠ b :: bs := by
          intro h
          simp only [List.cons.injEq] at h
          exact absurd (h.1 ▸ h1) (lt_irrefl _)
        simp only [if_pos h1, if_pos hne]
      · by_cases h2 : b < a
        · have hne : a :: as ≠ b :: bs := by
            intro h
            simp only [List.cons.injEq] at h
            exact absurd (h.1 ▸ h2) (lt_irrefl _)
          simp only [if_neg h1, if_pos h2, if_pos hne]
        · have hab : a = b := le_antisymm (not_lt.mp h2) (not_lt.mp h1)
          subst hab
          simp only [if_neg h1, List.append_eq, ih bs hlen, ne_eq, List.cons.injEq, true_and]

/-- C16: for all GUIDs `a` and `b`, `a < b` holds iff the 16-byte sequence
`a.prefix.value ++ a.entityId.value` is lexicographically smaller, bytes
compared as unsigned values, than that of `b`; when the prefixes are equal the
result is decided by the entityId bytes alone, and when the prefixes differ it
is decided by the prefix bytes alone, whatever the entityId bytes are. -/
theorem C16_guid_order_lexicographic (a b : GUID) :
    (a.lt b = true ↔ List.Lex (fun x y : Byte => x < y) a.bytes b.bytes) ∧
    a.bytes.length = 16 ∧
    (a.prefix_ = b.prefix_ →
      (a.lt b = true ↔
        List.Lex (fun x y : Byte => x < y) a.entityId.value.toList b.entityId.value.toList)) ∧
    (a.prefix_ ≠ b.prefix_ →
      (a.lt b = true ↔
        List.Lex (fun x y : Byte => x < y) a.prefix_.value.toList b.prefix_.value.toList) ∧
      ∀ e1 e2 : EntityId, (GUID.mk a.prefix_ e1).lt (GUID.mk b.prefix_ e2) = a.lt b) := by
  have hlen : a.prefix_.value.toList.length = b.prefix_.value.toList.length := by
    rw [Mathlib.Vector.toList_length, Mathlib.Vector.toList_length]
  have hne : a.prefix_.value.toList ≠ b.prefix_.value.toList ↔ a.prefix_.value ≠ b.prefix_.value := by
    rw [ne_eq, ne_eq, Mathlib.Vector.toList_injective.eq_iff]
  have hcat : a.lt b = lexicographical_compare a.bytes b.bytes := by
    unfold GUID.lt GUID.bytes
    rw [lexicographical_compare_append _ _ _ _ hlen]
    by_cases h : a.prefix_.value = b.prefix_.value
    · rw [if_neg (not_not.mpr h), if_neg (by rw [hne]; exact not_not.mpr h)]
    · rw [if_pos h, if_pos (hne.mpr h)]
  refine ⟨by rw [hcat, lexicographical_compare_iff], ?_, ?_, ?_⟩
  · simp [GUID.bytes, Mathlib.Vector.toList_length]
  · intro hp
    unfold GUID.lt
    rw [if_neg (by rw [hp]; exact not_not.mpr rfl), lexicographical_compare_iff]
  · intro hp
    have hv : a.prefix_.value ≠ b.prefix_.value := by
      intro h
      apply hp
      cases hx : a.prefix_
      cases hy : b.prefix_
      rw [hx, hy] at h
      simp only at h
      rw [h]
    refine ⟨?_, ?_⟩
    · unfold GUID.lt
      rw [if_pos hv, lexicographical_compare_iff]
    · intro e1 e2
      unfold GUID.lt
      simp only [if_pos hv]

/-- C16 on two GUIDs with equal prefixes and on two with different prefixes. -/
theorem C16_guid_order_lexicographic_witness :
    (GUID.mk GuidPrefix.init ENTITYID_UNKNOWN).prefix_
      = (GUID.mk GuidPrefix.init ENTITYID_PARTICIPANT).prefix_ ∧
    ((GUID.mk GuidPrefix.init ENTITYID_UNKNOWN).lt (GUID.mk GuidPrefix.init ENTITYID_PARTICIPANT)
        = true ↔
      List.Lex (fun x y : Byte => x < y)
        (GUID.mk GuidPrefix.init ENTITYID_UNKNOWN).entityId.value.toList
        (GUID.mk GuidPrefix.init ENTITYID_PARTICIPANT).entityId.value.toList) ∧
    (GUID.mk GuidPrefix.init ENTITYID_UNKNOWN).lt (GUID.mk GuidPrefix.init ENTITYID_PARTICIPANT)
      = true ∧
    (GUID.mk ⟨⟨[0, 0, 0, 0, 0, 0, 0, 0, 0, 0, 0, 1], rfl⟩⟩ ENTITYID_UNKNOWN).lt
        (GUID.mk ⟨⟨[0, 0, 0, 0, 0, 0, 0, 0, 0, 0, 0, 0], rfl⟩⟩ ENTITYID_PARTICIPANT)
      = false :=
  ⟨rfl,
    (C16_guid_order_lexicographic (GUID.mk GuidPrefix.init ENTITYID_UNKNOWN)
      (GUID.mk GuidPrefix.init ENTITYID_PARTICIPANT)).2.2.1 rfl,
    by decide, by decide⟩

/-! ## Locator -/

theorem c_str_of_no_zero (text : List Byte) (h : ∀ b ∈ text, b ≠ 0) : c_str text = text := by
  unfold c_str
  rw [List.takeWhile_eq_self_iff]
  intro b hb
  simp [h b hb]

theorem decimal_no_zero (n : Nat) (hn : n < 256) : ∀ b ∈ decimal n, b ≠ 0 := by
  intro b hb
  unfold decimal at hb
  have hval : ∀ k, k < 10 → toByte (48 + k) ≠ 0 := by
    intro k hk h
    have := congrArg Fin.val h
    rw [toByte_val] at this
    simp at this
    omega
  split_ifs at hb <;> simp only [List.mem_cons, List.mem_singleton, List.not_mem_nil, or_false] at hb
  · rw [hb]
    exact hval n (by omega)
  · rcases hb with hb | hb <;> rw [hb] <;> exact hval _ (by omega)
  · rcases hb with hb | hb | hb <;> rw [hb] <;> exact hval _ (by omega)

theorem dottedQuad_no_zero (a b c d : Byte) : ∀ x ∈ dottedQuad a b c d, x ≠ 0 := by
  intro x hx
  unfold dottedQuad at hx
  simp only [List.mem_append, List.mem_singleton] at hx
  rcases hx with ((((((hx | hx) | hx) | hx) | hx) | hx) | hx)
  · exact decimal_no_zero _ a.isLt x hx
  · rw [hx]; decide
  · exact decimal_no_zero _ b.isLt x hx
  · rw [hx]; decide
  · exact decimal_no_zero _ c.isLt x hx
  · rw [hx]; decide
  · exact decimal_no_zero _ d.isLt x hx

theorem c_str_dottedQuad (a b c d : Byte) : c_str (dottedQuad a b c d) = dottedQuad a b c d :=
  c_str_of_no_zero _ (dottedQuad_no_zero a b c d)

/-- The address a successful parse leaves behind. -/
theorem Locator.ofString_some (inet_pton : List Byte → Option (Mathlib.Vector Byte 4))
    (t : List Byte) (p : Nat) (a b c d : Byte) (h : inet_pton (c_str t) = some (quad a b c d)) :
    Locator.ofString inet_pton t p
      = { kind := LocatorKind.LOCATOR_KIND_UDPv4, port := p,
          address := ⟨[0, 0, 0, 0, 0, 0, 0, 0, 0, 0, 0, 0, a, b, c, d], rfl⟩ } := by
  unfold Locator.ofString
  rw [h]
  rfl

/-- The address a failed parse leaves behind. -/
theorem Locator.ofString_none (inet_pton : List Byte → Option (Mathlib.Vector Byte 4))
    (t : List Byte) (p : Nat) (h : inet_pton (c_str t) = none) :
    Locator.ofString inet_pton t p
      = { kind := LocatorKind.LOCATOR_KIND_UDPv4, port := p,
          address := Mathlib.Vector.replicate 16 0 } := by
  unfold Locator.ofString
  rw [h]

theorem quad_eta (v : Mathlib.Vector Byte 4) : v = quad (v.get 0) (v.get 1) (v.get 2) (v.get 3) := by
  obtain ⟨l, hl⟩ := v
  match l, hl with
  | [a, b, c, d], _ => rfl

/-- C17: for every locator, `is_multicast()` is true iff the kind is
`LOCATOR_KIND_UDPv4` and `224 <= address[12] <= 239`; it is false for every
locator of another kind whatever its address bytes, true for the locator built
from `"239.255.0.1"` and false for the one built from `"192.168.1.1"`. -/
theorem C17_multicast_classification (loc : Locator) :
    (loc.is_multicast = true ↔
      loc.kind = LocatorKind.LOCATOR_KIND_UDPv4 ∧ 224 ≤ loc.address.get 12
        ∧ loc.address.get 12 ≤ 239) ∧
    (loc.kind ≠ LocatorKind.LOCATOR_KIND_UDPv4 → loc.is_multicast = false) ∧
    (∀ (inet_pton : List Byte → Option (Mathlib.Vector Byte 4)) (port : Nat),
      inet_pton (ascii "239.255.0.1") = some (quad 239 255 0 1) →
      (Locator.ofString inet_pton (ascii "239.255.0.1") port).is_multicast = true) ∧
    (∀ (inet_pton : List Byte → Option (Mathlib.Vector Byte 4)) (port : Nat),
      inet_pton (ascii "192.168.1.1") = some (quad 192 168 1 1) →
      (Locator.ofString inet_pton (ascii "192.168.1.1") port).is_multicast = false) := by
  refine ⟨?_, ?_, ?_, ?_⟩
  · unfold Locator.is_multicast
    by_cases hk : loc.kind = LocatorKind.LOCATOR_KIND_UDPv4
    · simp [hk]
    · simp [hk]
  · intro hk
    unfold Locator.is_multicast
    rw [if_pos hk]
  · intro inet_pton port h
    have hc : c_str (ascii "239.255.0.1") = ascii "239.255.0.1" := by decide
    rw [Locator.ofString_some inet_pton _ port 239 255 0 1 (by rw [hc]; exact h)]
    rfl
  · intro inet_pton port h
    have hc : c_str (ascii "192.168.1.1") = ascii "192.168.1.1" := by decide
    rw [Locator.ofString_some inet_pton _ port 192 168 1 1 (by rw [hc]; exact h)]
    rfl

/-- C17 on the two addresses of the test and on a UDPv6 locator whose byte 12
is 239. -/
theorem C17_multicast_classification_witness :
    dottedQuadParser (ascii "239.255.0.1") = some (quad 239 255 0 1) ∧
    (Locator.ofString dottedQuadParser (ascii "239.255.0.1") 7400).is_multicast = true ∧
    (Locator.ofString dottedQuadParser (ascii "192.168.1.1") 7400).is_multicast = false ∧
    (Locator.mk LocatorKind.LOCATOR_KIND_UDPv6 7400
      ⟨[0, 0, 0, 0, 0, 0, 0, 0, 0, 0, 0, 0, 239, 255, 0, 1], rfl⟩).is_multicast = false :=
  ⟨by decide,
    (C17_multicast_classification Locator.init).2.2.1 dottedQuadParser 7400 (by decide),
    by decide, by decide⟩

/-- C18: for every text `t` and port `p`, `Locator(t, p)` has kind
`LOCATOR_KIND_UDPv4`, port `p` and address bytes 0..11 all zero; if `t` parses
as the dotted quad `a.b.c.d` then `address[12..15]` are `a`, `b`, `c`, `d`, and
if parsing fails then `address[12..15]` are zero as well, so that the result is
the all-zero-address UDPv4 locator with port `p`, equal to
`Locator("0.0.0.0", p)`. -/
theorem C18_construction_from_text (inet_pton : List Byte → Option (Mathlib.Vector Byte 4))
    (t : List Byte) (p : Nat) :
    (Locator.ofString inet_pton t p).kind = LocatorKind.LOCATOR_KIND_UDPv4 ∧
    (Locator.ofString inet_pton t p).port = p ∧
    (∀ i : Fin 16, i.val < 12 → (Locator.ofString inet_pton t p).address.get i = 0) ∧
    (∀ a b c d : Byte, inet_pton (c_str t) = some (quad a b c d) →
      (Locator.ofString inet_pton t p).address.get 12 = a ∧
      (Locator.ofString inet_pton t p).address.get 13 = b ∧
      (Locator.ofString inet_pton t p).address.get 14 = c ∧
      (Locator.ofString inet_pton t p).address.get 15 = d) ∧
    (inet_pton (c_str t) = none →
      (Locator.ofString inet_pton t p).address = Mathlib.Vector.replicate 16 0 ∧
      (inet_pton (ascii "0.0.0.0") = some (quad 0 0 0 0) →
        (Locator.ofString inet_pton t p).eq (Locator.ofString inet_pton (ascii "0.0.0.0") p)
          = true)) := by
  cases h : inet_pton (c_str t) with
  | none =>
    rw [Locator.ofString_none inet_pton t p h]
    refine ⟨rfl, rfl, ?_, ?_, ?_⟩
    · intro i _
      exact Mathlib.Vector.get_replicate 0 i
    · intro a b c d hq
      exact absurd hq (by simp)
    · intro _
      refine ⟨rfl, ?_⟩
      intro h0
      have hc : c_str (ascii "0.0.0.0") = ascii "0.0.0.0" := by decide
      rw [Locator.ofString_some inet_pton _ p 0 0 0 0 (by rw [hc]; exact h0)]
      simp only [Locator.eq, decide_True, Bool.true_and, decide_eq_true_eq]
      rfl
  | some ip =>
    have hq : inet_pton (c_str t) = some (quad (ip.get 0) (ip.get 1) (ip.get 2) (ip.get 3)) := by
      rw [h, ← quad_eta ip]
    rw [Locator.ofString_some inet_pton t p _ _ _ _ hq]
    refine ⟨rfl, rfl, ?_, ?_, ?_⟩
    · intro i hi
      match i, hi with
      | ⟨0, _⟩, _ | ⟨1, _⟩, _ | ⟨2, _⟩, _ | ⟨3, _⟩, _ | ⟨4, _⟩, _ | ⟨5, _⟩, _
      | ⟨6, _⟩, _ | ⟨7, _⟩, _ | ⟨8, _⟩, _ | ⟨9, _⟩, _ | ⟨10, _⟩, _ | ⟨11, _⟩, _ => rfl
    · intro a b c d hq2
      simp only [Option.some.injEq] at hq2
      have h0 := congrArg (fun v : Mathlib.Vector Byte 4 => v.get 0) hq2
      have h1 := congrArg (fun v : Mathlib.Vector Byte 4 => v.get 1) hq2
      have h2 := congrArg (fun v : Mathlib.Vector Byte 4 => v.get 2) hq2
      have h3 := congrArg (fun v : Mathlib.Vector Byte 4 => v.get 3) hq2
      exact ⟨h0, h1, h2, h3⟩
    · intro hn
      exact absurd hn (by simp)

/-- C18 on a well-formed and on a malformed text. -/
theorem C18_construction_from_text_witness :
    dottedQuadParser (c_str (ascii "192.168.1.100")) = some (quad 192 168 1 100) ∧
    (Locator.ofString dottedQuadParser (ascii "192.168.1.100") 7400).address.get 12 = 192 ∧
    dottedQuadParser (c_str (ascii "not an address")) = none ∧
    Locator.ofString dottedQuadParser (ascii "192.168.1.100") 7400
      = ⟨LocatorKind.LOCATOR_KIND_UDPv4, 7400,
          ⟨[0, 0, 0, 0, 0, 0, 0, 0, 0, 0, 0, 0, 192, 168, 1, 100], rfl⟩⟩ ∧
    Locator.ofString dottedQuadParser (ascii "not an address") 7400
      = ⟨LocatorKind.LOCATOR_KIND_UDPv4, 7400, Mathlib.Vector.replicate 16 0⟩ :=
  ⟨by decide,
    ((C18_construction_from_text dottedQuadParser (ascii "192.168.1.100") 7400).2.2.2.1
      192 168 1 100 (by decide)).1,
    by decide, by decide, by decide⟩

/-- C19: for all bytes `a`, `b`, `c`, `d` and every port `p`, when the C
library parses the canonical dotted-decimal text of `a.b.c.d` to these four
bytes and prints these four bytes as that text, `get_ipv4_string()` of
`Locator("a.b.c.d", p)` returns exactly that text; and for every locator whose
kind is not `LOCATOR_KIND_UDPv4`, `get_ipv4_string()` returns the empty string
whatever its address bytes. -/
theorem C19_text_round_trip (inet_pton : List Byte → Option (Mathlib.Vector Byte 4))
    (inet_ntop : Mathlib.Vector Byte 4 → Option (List Byte)) (a b c d : Byte) (p : Nat)
    (hpton : inet_pton (dottedQuad a b c d) = some (quad a b c d))
    (hntop : inet_ntop (quad a b c d) = some (dottedQuad a b c d)) :
    (Locator.ofString inet_pton (dottedQuad a b c d) p).get_ipv4_string inet_ntop
      = dottedQuad a b c d ∧
    ∀ loc : Locator, loc.kind ≠ LocatorKind.LOCATOR_KIND_UDPv4 →
      loc.get_ipv4_string inet_ntop = [] := by
  constructor
  · rw [Locator.ofString_some inet_pton _ p a b c d (by rw [c_str_dottedQuad]; exact hpton)]
    unfold Locator.get_ipv4_string
    simp only [ne_eq, not_true_eq_false, if_false]
    show (match inet_ntop (quad a b c d) with
      | some buffer => c_str buffer
      | none => []) = dottedQuad a b c d
    rw [hntop]
    exact c_str_dottedQuad a b c d
  · intro loc hk
    unfold Locator.get_ipv4_string
    rw [if_pos hk]

/-- C19 on the address of the test, `192.168.1.100`. -/
theorem C19_text_round_trip_witness :
    dottedQuadParser (dottedQuad 192 168 1 100) = some (quad 192 168 1 100) ∧
    dottedQuadPrinter (quad 192 168 1 100) = some (dottedQuad 192 168 1 100) ∧
    dottedQuad 192 168 1 100 = ascii "192.168.1.100" ∧
    (Locator.ofString dottedQuadParser (dottedQuad 192 168 1 100) 7400).get_ipv4_string
        dottedQuadPrinter
      = dottedQuad 192 168 1 100 :=
  ⟨by decide, by decide, by decide,
    (C19_text_round_trip dottedQuadParser dottedQuadPrinter 192 168 1 100 7400 (by decide)
      (by decide)).1⟩

/-! ### The instance of the C library parameters

`dottedQuadParser` and `dottedQuadPrinter` meet, at every address, what the
statements above assume of `inet_pton` and `inet_ntop`. -/

theorem toByte_digit_val (k : Nat) (hk : k < 10) : (toByte (48 + k)).val = 48 + k := by
  rw [toByte_val]
  omega

theorem toByte_fin_val (n : Byte) : toByte n.val = n := by
  apply Fin.ext
  rw [toByte_val]
  exact Nat.mod_eq_of_lt n.isLt

/-- What `parseOctet` makes of a run of digits followed by a dot or by nothing. -/
theorem parseOctet_digits (ds rest : List Byte)
    (hds : ∀ b ∈ ds, (decide (48 ≤ b.val) && decide (b.val ≤ 57)) = true)
    (hrest : rest = [] ∨ ∃ r, rest = 46 :: r) :
    parseOctet (ds ++ rest)
      = if ds.length = 0 ∨ 3 < ds.length then none
        else if 1 < ds.length ∧ ds.head? = some 48 then none
        else if 255 < ds.foldl (fun acc b => 10 * acc + (b.val - 48)) 0 then none
        else some (toByte (ds.foldl (fun acc b => 10 * acc + (b.val - 48)) 0), rest) := by
  have ht : rest.takeWhile (fun b => decide (48 ≤ b.val) && decide (b.val ≤ 57)) = [] := by
    rcases hrest with h | ⟨r, h⟩
    · rw [h]
      rfl
    · rw [h, List.takeWhile_cons]
      rfl
  have hd : rest.dropWhile (fun b => decide (48 ≤ b.val) && decide (b.val ≤ 57)) = rest := by
    have h := List.takeWhile_append_dropWhile
      (fun b : Byte => decide (48 ≤ b.val) && decide (b.val ≤ 57)) rest
    rw [ht] at h
    exact h
  unfold parseOctet
  rw [List.takeWhile_append_of_pos hds, List.dropWhile_append_of_pos hds, ht, hd, List.append_nil]

theorem decimal_digits (n : Nat) (hn : n < 256) :
    (∀ b ∈ decimal n, (decide (48 ≤ b.val) && decide (b.val ≤ 57)) = true) ∧
    0 < (decimal n).length ∧ (decimal n).length ≤ 3 ∧
    (1 < (decimal n).length → (decimal n).head? ≠ some 48) ∧
    (decimal n).foldl (fun acc b => 10 * acc + (b.val - 48)) 0 = n := by
  have h48 : ∀ k, k < 10 → 0 < k → toByte (48 + k) ≠ 48 := by
    intro k hk h0 h
    have := congrArg Fin.val h
    rw [toByte_digit_val k hk] at this
    have h2 : 48 + k = 48 := this
    omega
  unfold decimal
  split_ifs with h1 h2
  · have e1 := toByte_digit_val n h1
    refine ⟨by simp [e1]; omega, by simp, by simp, by simp, by simp [e1]⟩
  · have e1 := toByte_digit_val (n / 10) (by omega)
    have e2 := toByte_digit_val (n % 10) (by omega)
    refine ⟨by simp [e1, e2]; omega, by simp, by simp, ?_, ?_⟩
    · intro _
      simp only [List.head?_cons, ne_eq, Option.some.injEq]
      exact h48 (n / 10) (by omega) (by omega)
    · simp [e1, e2]
      omega
  · have e1 := toByte_digit_val (n / 100) (by omega)
    have e2 := toByte_digit_val (n / 10 % 10) (by omega)
    have e3 := toByte_digit_val (n % 10) (by omega)
    refine ⟨by simp [e1, e2, e3]; omega, by simp, by simp, ?_, ?_⟩
    · intro _
      simp only [List.head?_cons, ne_eq, Option.some.injEq]
      exact h48 (n / 100) (by omega) (by omega)
    · simp [e1, e2, e3]
      omega

theorem parseOctet_decimal (n : Byte) (rest : List Byte)
    (hrest : rest = [] ∨ ∃ r, rest = 46 :: r) :
    parseOctet (decimal n.val ++ rest) = some (n, rest) := by
  obtain ⟨hds, hpos, hle, hhead, hval⟩ := decimal_digits n.val n.isLt
  rw [parseOctet_digits _ _ hds hrest, hval, toByte_fin_val]
  have c1 : ¬ ((decimal n.val).length = 0 ∨ 3 < (decimal n.val).length) := by omega
  have c2 : ¬ (1 < (decimal n.val).length ∧ (decimal n.val).head? = some 48) :=
    fun h => hhead h.1 h.2
  have c3 : ¬ (255 < n.val) := by omega
  rw [if_neg c1, if_neg c2, if_neg c3]

/-- The parser reads the canonical text of every address back to its bytes. -/
theorem dottedQuadParser_dottedQuad (a b c d : Byte) :
    dottedQuadParser (dottedQuad a b c d) = some (quad a b c d) := by
  have hshape : dottedQuad a b c d
      = decimal a.val ++ 46 :: (decimal b.val ++ 46 :: (decimal c.val ++ 46 :: (decimal d.val ++ []))) := by
    simp [dottedQuad]
  rw [hshape]
  unfold dottedQuadParser
  rw [parseOctet_decimal a _ (Or.inr ⟨_, rfl⟩)]
  simp only
  rw [parseOctet_decimal b _ (Or.inr ⟨_, rfl⟩)]
  simp only
  rw [parseOctet_decimal c _ (Or.inr ⟨_, rfl⟩)]
  simp only
  rw [parseOctet_decimal d _ (Or.inl rfl)]

/-- The printer writes the canonical text of every address. -/
theorem dottedQuadPrinter_quad (a b c d : Byte) :
    dottedQuadPrinter (quad a b c d) = some (dottedQuad a b c d) := rfl

/-! ## Fixed-size reads on arbitrary input -/

theorem fixedRead_intro (n : Nat) (d : CdrDeserializer) (hs : d.swap_bytes_ = false) :
    FixedRead n id d ((d.align n).read_value n) := by
  unfold FixedRead
  rw [CdrDeserializer.aligned_read_eq, hs]
  simp only [padding, wireValue, Bool.false_eq_true, if_false, id]
  by_cases h : d.buffer_.length < d.pos_ + (n - d.pos_ % n) % n + n
  · rw [if_pos h, if_neg (by omega)]
  · rw [if_neg h, if_pos (by omega)]

theorem fixedRead_signed (n : Nat) (d : CdrDeserializer) (hs : d.swap_bytes_ = false) :
    FixedRead n (signedValue n) d (CdrDeserializer.asSigned n ((d.align n).read_value n)) := by
  have h := fixedRead_intro n d hs
  unfold FixedRead at h ⊢
  rw [h]
  split_ifs <;> rfl

/-- C20: for every buffer of length `len`, cursor `p` and read of natural size
`n` in {2, 4, 8} with the byte swap off, with `a = p + (n - p mod n) mod n`, the
read returns `true` iff `a + n <= len`; it then yields the integer whose
native-order (little-endian) bytes are `buffer[a .. a+n-1]`, as a signed value
for the signed reads, and the cursor becomes `a + n`.  The 1-byte reads return
`true` iff `p < len`, yield `buffer[p]` (bool: `buffer[p] != 0`) and move the
cursor to `p + 1`. -/
theorem C20_fixed_read_semantics (d : CdrDeserializer) (hs : d.swap_bytes_ = false) :
    FixedRead 2 id d d.deserialize_uint16 ∧
    FixedRead 2 (signedValue 2) d d.deserialize_int16 ∧
    FixedRead 4 id d d.deserialize_uint32 ∧
    FixedRead 4 (signedValue 4) d d.deserialize_int32 ∧
    FixedRead 8 id d d.deserialize_uint64 ∧
    FixedRead 8 (signedValue 8) d d.deserialize_int64 ∧
    d.deserialize_byte
      = (if h : d.pos_ < d.buffer_.length then
          some (some (d.buffer_.get ⟨d.pos_, h⟩), { d with pos_ := d.pos_ + 1 })
        else some (none, d)) ∧
    d.deserilalizer_bool
      = (if h : d.pos_ < d.buffer_.length then
          some (some (d.buffer_.get ⟨d.pos_, h⟩ != 0), { d with pos_ := d.pos_ + 1 })
        else some (none, d)) :=
  ⟨fixedRead_intro 2 d hs, fixedRead_signed 2 d hs, fixedRead_intro 4 d hs,
    fixedRead_signed 4 d hs, fixedRead_intro 8 d hs, fixedRead_signed 8 d hs,
    CdrDeserializer.deserialize_byte_eq d, CdrDeserializer.deserilalizer_bool_eq d⟩

/-- C20 on the buffer `AB 00 34 12` with the cursor at 1: `deserialize_uint16`
skips one byte and reads `0x1234` from the bytes `34 12`, leaving the cursor at
4; `deserialize_uint32` needs the bytes 4 to 7 and returns `false`. -/
theorem C20_fixed_read_semantics_witness :
    (CdrDeserializer.mk [0xAB, 0x00, 0x34, 0x12] 1 false).swap_bytes_ = false ∧
    FixedRead 2 id (CdrDeserializer.mk [0xAB, 0x00, 0x34, 0x12] 1 false)
      (CdrDeserializer.mk [0xAB, 0x00, 0x34, 0x12] 1 false).deserialize_uint16 ∧
    (CdrDeserializer.mk [0xAB, 0x00, 0x34, 0x12] 1 false).deserialize_uint16
      = some (some 0x1234, CdrDeserializer.mk [0xAB, 0x00, 0x34, 0x12] 4 false) ∧
    (CdrDeserializer.mk [0xAB, 0x00, 0x34, 0x12] 1 false).deserialize_uint32
      = some (none, CdrDeserializer.mk [0xAB, 0x00, 0x34, 0x12] 4 false) ∧
    (CdrDeserializer.mk [0xFE, 0xFF] 0 false).deserialize_int16
      = some (some (-2), CdrDeserializer.mk [0xFE, 0xFF] 2 false) :=
  ⟨rfl,
    (C20_fixed_read_semantics (CdrDeserializer.mk [0xAB, 0x00, 0x34, 0x12] 1 false) rfl).1,
    by decide, by decide, by decide⟩

/-! ## GUID: the hash -/

/-- The loop over the indices of an array is the xor of the shifted hashes of
its elements. -/
theorem foldl_finRange_xor (byteHash : Byte → Nat) (n : Nat) (v : Mathlib.Vector Byte n)
    (off h0 : Nat) :
    (List.finRange n).foldl
        (fun h i => h ^^^ ((byteHash (v.get i) <<< (i.val + off)) % 2 ^ 64)) h0
      = h0 ^^^ xorShifted byteHash off v.toList := by
  induction n generalizing off h0 with
  | zero =>
    have hv : v.toList = [] := by
      have := v.toList_length
      exact List.length_eq_zero.mp this
    simp [hv, xorShifted]
  | succ n ih =>
    obtain ⟨a, w, rfl⟩ := Mathlib.Vector.exists_eq_cons v
    rw [List.finRange_succ_eq_map, List.foldl_cons, List.foldl_map]
    simp only [Mathlib.Vector.get_cons_zero, Mathlib.Vector.get_cons_succ, Fin.val_succ,
      Fin.val_zero, Mathlib.Vector.toList_cons, xorShifted, Nat.zero_add]
    have hshift : ∀ i : Fin n, i.val + 1 + off = i.val + (off + 1) := fun i => by omega
    simp only [hshift]
    rw [ih w (off + 1), Nat.xor_assoc]
    rfl


theorem xorShifted_append (byteHash : Byte → Nat) (off : Nat) (l1 l2 : List Byte) :
    xorShifted byteHash off (l1 ++ l2)
      = xorShifted byteHash off l1 ^^^ xorShifted byteHash (off + l1.length) l2 := by
  induction l1 generalizing off with
  | nil => simp [xorShifted]
  | cons a as ih =>
    have h : off + 1 + as.length = off + (as.length + 1) := by omega
    show ((byteHash a <<< off) % 2 ^ 64) ^^^ xorShifted byteHash (off + 1) (as ++ l2)
      = (((byteHash a <<< off) % 2 ^ 64) ^^^ xorShifted byteHash (off + 1) as)
          ^^^ xorShifted byteHash (off + (as.length + 1)) l2
    rw [ih, Nat.xor_assoc, h]

/-- The hash is the xor of the 16 bytes, the byte at index `i` shifted left by
`i` bits. -/
theorem GUID.hash_eq (byteHash : Byte → Nat) (g : GUID) :
    g.hash byteHash = xorShifted byteHash 0 g.bytes := by
  unfold GUID.hash GUID.bytes
  have h1 := foldl_finRange_xor byteHash 12 g.prefix_.value 0 0
  have h2 := foldl_finRange_xor byteHash 4 g.entityId.value 12
  simp only [Nat.add_zero] at h1
  simp only [h1, h2, Nat.zero_xor, xorShifted_append, Mathlib.Vector.toList_length, Nat.zero_add]

/-- Two lists of the same length that differ at exactly one index have different
xors, as long as no shifted byte leaves the 64 bits. -/
theorem xorShifted_separates (off : Nat) (l1 l2 : List Byte) (k : Nat)
    (hlen : l1.length = l2.length) (hoff : off + l1.length ≤ 57)
    (hk : l1[k]? ≠ l2[k]?) (hrest : ∀ j, j ≠ k → l1[j]? = l2[j]?) :
    xorShifted identityHash off l1 ≠ xorShifted identityHash off l2 := by
  induction l1 generalizing l2 off k with
  | nil =>
    cases l2 with
    | nil => simp at hk
    | cons b bs => simp at hlen
  | cons a as ih =>
    cases l2 with
    | nil => simp at hlen
    | cons b bs =>
      simp only [List.length_cons, Nat.add_right_cancel_iff] at hlen
      simp only [List.length_cons] at hoff
      simp only [xorShifted]
      cases k with
      | zero =>
        have hab : a ≠ b := by
          intro h
          apply hk
          simp [h]
        have htail : as = bs := by
          apply List.ext_getElem? 
          intro j
          have := hrest (j + 1) (by omega)
          simpa using this
        rw [htail]
        intro h
        have h2 := Nat.xor_left_injective h
        apply hab
        apply Fin.ext
        have ha : a.val < 256 := a.isLt
        have hb : b.val < 256 := b.isLt
        have hpow : (2 : Nat) ^ off ≤ 2 ^ 56 := Nat.pow_le_pow_right (by decide) (by omega)
        have hpos : 0 < (2 : Nat) ^ off := Nat.two_pow_pos off
        simp only [identityHash, Nat.shiftLeft_eq] at h2
        have hA : a.val * 2 ^ off < 2 ^ 64 := by
          calc a.val * 2 ^ off ≤ 255 * 2 ^ 56 := Nat.mul_le_mul (by omega) hpow
            _ < 2 ^ 64 := by decide
        have hB : b.val * 2 ^ off < 2 ^ 64 := by
          calc b.val * 2 ^ off ≤ 255 * 2 ^ 56 := Nat.mul_le_mul (by omega) hpow
            _ < 2 ^ 64 := by decide
        rw [Nat.mod_eq_of_lt hA, Nat.mod_eq_of_lt hB] at h2
        exact Nat.eq_of_mul_eq_mul_right hpos h2
      | succ k =>
        have hab : a = b := by
          have := hrest 0 (by omega)
          simpa using this
        rw [hab]
        intro h
        have h2 := Nat.xor_right_injective h
        exact ih (off + 1) bs k hlen (by omega) (by simpa using hk)
          (fun j hj => by
            have := hrest (j + 1) (by omega)
            simpa using this) h2

/-! ## GUID: equality, order and hash together -/

theorem GUID.eq_iff (a b : GUID) : a.eq b = true ↔ a = b := by
  cases a with
  | mk pa ea =>
    cases b with
    | mk pb eb =>
      cases pa
      cases pb
      cases ea
      cases eb
      simp [GUID.eq, GuidPrefix.eq, EntityId.eq]

theorem GUID.bytes_injective (a b : GUID) : a.bytes = b.bytes ↔ a = b := by
  constructor
  · intro h
    unfold GUID.bytes at h
    have hlen : a.prefix_.value.toList.length = b.prefix_.value.toList.length := by
      rw [Mathlib.Vector.toList_length, Mathlib.Vector.toList_length]
    obtain ⟨h1, h2⟩ := List.append_inj h hlen
    have hp := Mathlib.Vector.toList_injective h1
    have he := Mathlib.Vector.toList_injective h2
    cases a with
    | mk pa ea =>
      cases b with
      | mk pb eb =>
        cases pa
        cases pb
        cases ea
        cases eb
        simp only at hp he
        rw [hp, he]
  · intro h
    rw [h]

theorem GUID.lt_iff_lex (a b : GUID) :
    a.lt b = true ↔ List.Lex (fun x y : Byte => x < y) a.bytes b.bytes := by
  have hlen : a.prefix_.value.toList.length = b.prefix_.value.toList.length := by
    rw [Mathlib.Vector.toList_length, Mathlib.Vector.toList_length]
  have hne : a.prefix_.value.toList ≠ b.prefix_.value.toList ↔ a.prefix_.value ≠ b.prefix_.value := by
    rw [ne_eq, ne_eq, Mathlib.Vector.toList_injective.eq_iff]
  rw [← lexicographical_compare_iff]
  unfold GUID.lt GUID.bytes
  rw [lexicographical_compare_append _ _ _ _ hlen]
  by_cases h : a.prefix_.value = b.prefix_.value
  · rw [if_neg (not_not.mpr h), if_neg (by rw [hne]; exact not_not.mpr h)]
  · rw [if_pos h, if_pos (hne.mpr h)]

/-- C21: for all GUIDs `a`, `b`, `c`: not `a < a`; `a < b` and `b < c` imply
`a < c`; exactly one of `a < b`, `a == b`, `b < a` holds; so two GUIDs are equal
iff neither is less than the other. -/
theorem C21_guid_strict_total_order (a b c : GUID) :
    a.lt a = false ∧
    (a.lt b = true → b.lt c = true → a.lt c = true) ∧
    ((a.lt b = true ∧ a.eq b = false ∧ b.lt a = false) ∨
      (a.lt b = false ∧ a.eq b = true ∧ b.lt a = false) ∨
      (a.lt b = false ∧ a.eq b = false ∧ b.lt a = true)) ∧
    (a.eq b = true ↔ (a.lt b = false ∧ b.lt a = false)) ∧
    (a.eq b = true ↔ a = b) := by
  have hirr : ∀ x : GUID, ¬ (x.lt x = true) := by
    intro x hx
    rw [GUID.lt_iff_lex] at hx
    exact irrefl_of (List.Lex (fun x y : Byte => x < y)) x.bytes hx
  have hasymm : a.lt b = true → b.lt a = true → False := by
    intro h1 h2
    rw [GUID.lt_iff_lex] at h1 h2
    exact asymm_of (List.Lex (fun x y : Byte => x < y)) h1 h2
  have htri : a.lt b = true ∨ a = b ∨ b.lt a = true := by
    rw [GUID.lt_iff_lex, GUID.lt_iff_lex, ← GUID.bytes_injective]
    exact trichotomous_of (List.Lex (fun x y : Byte => x < y)) a.bytes b.bytes
  have heq : a.eq b = true ↔ a = b := GUID.eq_iff a b
  have hne1 : a = b → a.lt b = false := by
    intro h
    rw [h]
    exact Bool.eq_false_iff.mpr (hirr b)
  have hne2 : a = b → b.lt a = false := by
    intro h
    rw [h]
    exact Bool.eq_false_iff.mpr (hirr b)
  refine ⟨Bool.eq_false_iff.mpr (hirr a), ?_, ?_, ?_, heq⟩
  · intro h1 h2
    rw [GUID.lt_iff_lex] at h1 h2 ⊢
    exact trans_of (List.Lex (fun x y : Byte => x < y)) h1 h2
  · rcases htri with h | h | h
    · refine Or.inl ⟨h, ?_, ?_⟩
      · rw [Bool.eq_false_iff, ne_eq, heq]
        intro hab
        rw [hne1 hab] at h
        exact Bool.false_ne_true h
      · exact Bool.eq_false_iff.mpr (fun h2 => hasymm h h2)
    · exact Or.inr (Or.inl ⟨hne1 h, heq.mpr h, hne2 h⟩)
    · refine Or.inr (Or.inr ⟨?_, ?_, h⟩)
      · exact Bool.eq_false_iff.mpr (fun h2 => hasymm h2 h)
      · rw [Bool.eq_false_iff, ne_eq, heq]
        intro hab
        rw [hne2 hab] at h
        exact Bool.false_ne_true h
  · constructor
    · intro h
      exact ⟨hne1 (heq.mp h), hne2 (heq.mp h)⟩
    · rintro ⟨h1, h2⟩
      rcases htri with h | h | h
      · rw [h1] at h
        exact absurd h Bool.false_ne_true
      · exact heq.mpr h
      · rw [h2] at h
        exact absurd h Bool.false_ne_true

/-- C21 on three GUIDs with the same prefix and increasing entity ids. -/
theorem C21_guid_strict_total_order_witness :
    (GUID.mk GuidPrefix.init ENTITYID_UNKNOWN).lt (GUID.mk GuidPrefix.init ENTITYID_PARTICIPANT)
      = true ∧
    (GUID.mk GuidPrefix.init ENTITYID_PARTICIPANT).lt
        (GUID.mk GuidPrefix.init (EntityId.ofBytes 0x00 0x00 0x02 0xC2)) = true ∧
    (GUID.mk GuidPrefix.init ENTITYID_UNKNOWN).lt
        (GUID.mk GuidPrefix.init (EntityId.ofBytes 0x00 0x00 0x02 0xC2)) = true :=
  ⟨by decide, by decide,
    (C21_guid_strict_total_order (GUID.mk GuidPrefix.init ENTITYID_UNKNOWN)
      (GUID.mk GuidPrefix.init ENTITYID_PARTICIPANT)
      (GUID.mk GuidPrefix.init (EntityId.ofBytes 0x00 0x00 0x02 0xC2))).2.1
      (by decide) (by decide)⟩

/-- C22: with `std::hash<uint8_t>` the identity and a `size_t` of 64 bits, two
GUIDs that differ in the byte at one index `k` of their 16 bytes (in the prefix
or in the entityId) and agree on the 15 others get different values of
`std::hash<GUID>`; and GUIDs that are equal get equal hash values. -/
theorem C22_hash_separates_single_byte (a b : GUID) (k : Nat)
    (hk : a.bytes[k]? ≠ b.bytes[k]?) (hrest : ∀ j, j ≠ k → a.bytes[j]? = b.bytes[j]?) :
    a.hash identityHash ≠ b.hash identityHash ∧
    k < 16 ∧
    (∀ c d : GUID, c.eq d = true → c.hash identityHash = d.hash identityHash) := by
  have hla : a.bytes.length = 16 := by simp [GUID.bytes, Mathlib.Vector.toList_length]
  have hlb : b.bytes.length = 16 := by simp [GUID.bytes, Mathlib.Vector.toList_length]
  refine ⟨?_, ?_, ?_⟩
  · rw [GUID.hash_eq, GUID.hash_eq]
    exact xorShifted_separates 0 a.bytes b.bytes k (by rw [hla, hlb]) (by rw [hla]; decide)
      hk hrest
  · by_contra hge
    apply hk
    rw [List.getElem?_eq_none (by omega), List.getElem?_eq_none (by omega)]
  · intro c d h
    rw [(GUID.eq_iff c d).mp h]

/-- C22 on two GUIDs that differ in the last byte of the entityId only: the
hash values are 0 and `1 << 15`. -/
theorem C22_hash_separates_single_byte_witness :
    (GUID.mk GuidPrefix.init ENTITYID_UNKNOWN).bytes[15]?
      ≠ (GUID.mk GuidPrefix.init (EntityId.ofBytes 0 0 0 1)).bytes[15]? ∧
    (∀ j, j ≠ 15 → (GUID.mk GuidPrefix.init ENTITYID_UNKNOWN).bytes[j]?
      = (GUID.mk GuidPrefix.init (EntityId.ofBytes 0 0 0 1)).bytes[j]?) ∧
    (GUID.mk GuidPrefix.init ENTITYID_UNKNOWN).hash identityHash
      ≠ (GUID.mk GuidPrefix.init (EntityId.ofBytes 0 0 0 1)).hash identityHash ∧
    (GUID.mk GuidPrefix.init ENTITYID_UNKNOWN).hash identityHash = 0 ∧
    (GUID.mk GuidPrefix.init (EntityId.ofBytes 0 0 0 1)).hash identityHash = 32768 :=
  have hrest : ∀ j, j ≠ 15 → (GUID.mk GuidPrefix.init ENTITYID_UNKNOWN).bytes[j]?
      = (GUID.mk GuidPrefix.init (EntityId.ofBytes 0 0 0 1)).bytes[j]? := by
    intro j hj
    by_cases hlt : j < 15
    · interval_cases j <;> rfl
    · have hge : 16 ≤ j := by omega
      have hla : (GUID.mk GuidPrefix.init ENTITYID_UNKNOWN).bytes.length ≤ j := hge
      have hlb : (GUID.mk GuidPrefix.init (EntityId.ofBytes 0 0 0 1)).bytes.length ≤ j := hge
      rw [List.getElem?_eq_none hla, List.getElem?_eq_none hlb]
  ⟨by decide, hrest,
    (C22_hash_separates_single_byte (GUID.mk GuidPrefix.init ENTITYID_UNKNOWN)
      (GUID.mk GuidPrefix.init (EntityId.ofBytes 0 0 0 1)) 15 (by decide) hrest).1,
    by decide, by decide⟩

/-! ## SequenceNumber: increment and addition -/

theorem SequenceNumber.preIncrement_eq (s : SequenceNumber) (hs : s.InRange) :
    s.preIncrement
      = if s.low = 0xFFFFFFFF then ⟨s.high + 1, 0⟩ else ⟨s.high, s.low + 1⟩ := by
  obtain ⟨h1, h2, h3⟩ := hs
  unfold SequenceNumber.preIncrement
  simp only
  by_cases hl : s.low = 0xFFFFFFFF
  · have h0 : (s.low + 1) % 2 ^ 32 = 0 := by rw [hl]; norm_num
    rw [if_pos h0, if_pos hl, h0]
  · have h0 : (s.low + 1) % 2 ^ 32 = s.low + 1 := Nat.mod_eq_of_lt (by omega)
    have h4 : ¬ ((s.low + 1) % 2 ^ 32 = 0) := by omega
    rw [if_neg h4, if_neg hl, h0]

/-- C23: for every counter `s` with `s.to_int64() != 2 ^ 63 - 1`, the counter
obtained by pre-increment has `to_int64() == s.to_int64() + 1` and is equal to
`s + 1` computed through `operator+(int64_t)`. -/
theorem C23_increment_is_plus_one (s : SequenceNumber) (hs : s.InRange)
    (hmax : s.to_int64 ≠ 2 ^ 63 - 1) :
    s.preIncrement.to_int64 = s.to_int64 + 1 ∧
    s.preIncrement.eq (s.add 1) = true ∧
    s.preIncrement = s.add 1 := by
  have hv := SequenceNumber.to_int64_eq s hs
  have hpre := SequenceNumber.preIncrement_eq s hs
  obtain ⟨h1, h2, h3⟩ := hs
  rw [hv] at hmax
  have hr1 : -(2 : Int) ^ 63 ≤ s.to_int64 + 1 := by rw [hv]; norm_num at *; omega
  have hr2 : s.to_int64 + 1 < (2 : Int) ^ 63 := by rw [hv]; norm_num at *; omega
  have hadd : s.add 1 = s.preIncrement := by
    unfold SequenceNumber.add
    rw [SequenceNumber.ofInt64_eq _ hr1 hr2, hpre, hv]
    split_ifs with hl
    · simp only [SequenceNumber.mk.injEq]
      norm_num at *
      omega
    · simp only [SequenceNumber.mk.injEq]
      norm_num at *
      omega
  refine ⟨?_, ?_, hadd.symm⟩
  · rw [← hadd]
    exact SequenceNumber.to_int64_ofInt64 _ hr1 hr2
  · rw [hadd]
    simp [SequenceNumber.eq]

/-- C23 on the test: `SequenceNumber(1)` incremented has the value 2. -/
theorem C23_increment_is_plus_one_witness :
    (SequenceNumber.ofInt64 1).InRange ∧ (SequenceNumber.ofInt64 1).to_int64 ≠ 2 ^ 63 - 1 ∧
    (SequenceNumber.ofInt64 1).preIncrement.to_int64 = (SequenceNumber.ofInt64 1).to_int64 + 1 ∧
    (SequenceNumber.ofInt64 1).preIncrement.to_int64 = 2 :=
  ⟨by decide, by decide,
    (C23_increment_is_plus_one (SequenceNumber.ofInt64 1) (by decide) (by decide)).1,
    by decide⟩

end tinydds.rtps
